import Mathlib

set_option maxHeartbeats 1600000

/-
Shallow embedding of crates/kitsune_p2p/kitsune_p2p/src/gossip/simple_bloom/
step_2_local_sync_inner.rs.

The pass collects each local agent's op hashes, collects the space-shared
agent-info records once, reconciles the per-agent knowledge sets by local
delivery, and finally builds a bloom digest over the converged key set.

Modelling decisions:
- Opaque identifiers (KitsuneSpace, KitsuneAgent, KitsuneOpHash) become Nat;
  op payload bytes become List Nat.  The space is constant for a pass and is
  dropped from the state.
- Rust HashMap and HashSet iteration order is unspecified; maps and sets are
  embedded as association lists and lists, and all theorems quantify over an
  arbitrary order, so every possible iteration order is covered.  The HashMap
  representation invariant (distinct keys) appears as a Nodup hypothesis
  where a theorem needs it.
- The external event sender (an mpsc channel to the host) is embedded as a
  record of response functions (Env).  A deterministic function models the
  fact that one pass talks to one fixed external store.
- Fallible external calls return Except Unit; the pass result is KRes, with
  KitsuneError-style early returns embedded as PassErr.fail and the two
  unreachable branches of the source embedded as PassErr.panicked, so that
  reaching a panic branch is observable in the model.
- The run is instrumented with a Trace recording every fetch_op_hash_data
  request, every insertion into the data map, and every gossip (local
  delivery) request, in chronological order, so the caching, idempotence and
  fatality claims are statable.
-/

namespace SimpleBloom

abbrev Agent := Nat
abbrev OpHash := Nat
abbrev Bytes := List Nat

/-- Signed agent-info record: the agent it advertises, its signed-at
timestamp, and the rest of the signed payload collapsed to one Nat. -/
structure AgentInfoSigned where
  agent : Nat
  signedAtMs : Nat
  payload : Nat
deriving DecidableEq

/-- MetaOpKey from the source: either an op hash or an agent-info key. -/
inductive MetaOpKey where
  | op : OpHash → MetaOpKey
  | agent : Agent → Nat → MetaOpKey
deriving DecidableEq

/-- MetaOpData from the source: op payload or a signed agent-info record. -/
inductive MetaOpData where
  | op : OpHash → Bytes → MetaOpData
  | agent : AgentInfoSigned → MetaOpData
deriving DecidableEq

/-- Modelled from the spec: the key accessor of MetaOpData lives in the
simple_bloom module root, which is not among the sampled files.  Per the
spec, each record deterministically yields its own key: an op record yields
its op-hash key, an agent-info record yields the agent-info key built from
the advertised agent and the signed-at timestamp. -/
def MetaOpData.key : MetaOpData → MetaOpKey
  | .op h _ => .op h
  | .agent i => .agent i.agent i.signedAtMs

/-- True exactly on agent-info keys. -/
def isAgentKey : MetaOpKey → Bool
  | .agent _ _ => true
  | .op _ => false

abbrev KeySet := List MetaOpKey
abbrev HasMap := List (Agent × KeySet)
abbrev DataMap := List (MetaOpKey × MetaOpData)

/-- HashSet::insert on a key set (set semantics: no-op when present). -/
def ksInsert (s : KeySet) (k : MetaOpKey) : KeySet :=
  if k ∈ s then s else s ++ [k]

/-- HashMap::get on the data map (first binding wins). -/
def dmGet : DataMap → MetaOpKey → Option MetaOpData
  | [], _ => none
  | (k, v) :: rest, q => if q = k then some v else dmGet rest q

/-- HashMap::insert on the data map; the new binding shadows any older one,
which is observationally the overwrite semantics of the Rust map. -/
def dmInsert (dm : DataMap) (k : MetaOpKey) (v : MetaOpData) : DataMap :=
  (k, v) :: dm

/-- HashMap::get on the per-agent index. -/
def hhGet : HasMap → Agent → Option KeySet
  | [], _ => none
  | (b, s) :: rest, a => if a = b then some s else hhGet rest a

/-- entry(agent).or_insert_with(HashSet::new).insert(key) on the index. -/
def hhInsert : HasMap → Agent → MetaOpKey → HasMap
  | [], a, k => [(a, [k])]
  | (b, s) :: rest, a, k =>
    if a = b then (b, ksInsert s k) :: rest
    else (b, s) :: hhInsert rest a k

/-- Errors a pass can stop with: fail embeds a returned KitsuneError, while
panicked embeds reaching one of the two unreachable branches of the source,
kept distinct so the safety claim about those branches is statable. -/
inductive PassErr where
  | fail : PassErr
  | panicked : PassErr
deriving DecidableEq

/-- KitsuneResult of the source, with the panic outcome made observable. -/
inductive KRes (α : Type) where
  | ok : α → KRes α
  | err : PassErr → KRes α
deriving DecidableEq

def KRes.isOk : KRes α → Bool
  | .ok _ => true
  | .err _ => false

/-- The external event sender, as the response behaviour of the host store:
fetch_op_hashes_for_constraints per agent (the call site always passes the
full arc and full time range, so those arguments are dropped),
query_agent_info_signed per anchor agent, fetch_op_hash_data per agent and
requested hash (the call site always requests exactly one hash), and gossip
as local delivery to (to_agent, from_agent, op hash, op data). -/
structure Env where
  fetch_op_hashes_for_constraints : Agent → Except Unit (List OpHash)
  query_agent_info_signed : Agent → Except Unit (List AgentInfoSigned)
  fetch_op_hash_data : Agent → OpHash → Except Unit (List (OpHash × Bytes))
  gossip : Agent → Agent → OpHash → Bytes → Except Unit Unit

/-- Chronological record of the externally visible actions of one pass. -/
structure Trace where
  fetched : List (Agent × OpHash)
  inserts : List (MetaOpKey × MetaOpData)
  gossips : List (Agent × Agent × OpHash × Bytes)
deriving DecidableEq

def emptyTrace : Trace := ⟨[], [], []⟩

/-- The Inner state of the pass (the space is constant and dropped). -/
structure Inner where
  local_agents : List Agent
  data_map : DataMap
  has_hash : HasMap
deriving DecidableEq

def initInner (la : List Agent) : Inner := ⟨la, [], []⟩

/-- Inner loop of collect_local_ops: wrap each returned hash as an op key
and insert it into this agent's index entry. -/
def insertOps : HasMap → Agent → List OpHash → HasMap
  | hh, _, [] => hh
  | hh, a, h :: t => insertOps (hhInsert hh a (MetaOpKey.op h)) a t

/-- collect_local_ops: for every local agent query its op hashes over the
full arc and time range; a failed query is skipped (best effort). -/
def collectOps (env : Env) : HasMap → List Agent → HasMap
  | hh, [] => hh
  | hh, a :: rest =>
    match env.fetch_op_hashes_for_constraints a with
    | .error _ => collectOps env hh rest
    | .ok ops => collectOps env (insertOps hh a ops) rest

def collect_local_ops (env : Env) (inner : Inner) : Inner :=
  { inner with has_hash := collectOps env inner.has_hash inner.local_agents }

/-- Body of collect_local_agents: for each returned record, cache it in the
data map and insert its key into every existing index entry; also records
the data-map insertion events. -/
def collectInfos :
    DataMap → HasMap → List (MetaOpKey × MetaOpData) → List AgentInfoSigned →
      DataMap × HasMap × List (MetaOpKey × MetaOpData)
  | dm, hh, evs, [] => (dm, hh, evs)
  | dm, hh, evs, i :: rest =>
    collectInfos (dmInsert dm (MetaOpData.agent i).key (MetaOpData.agent i))
      (hh.map fun p => (p.1, ksInsert p.2 (MetaOpData.agent i).key))
      (evs ++ [((MetaOpData.agent i).key, MetaOpData.agent i)]) rest

/-- collect_local_agents: the agent store is shared in one space so it is
queried once, anchored at an arbitrary local agent; a failed query adds
nothing (best effort).  Also returns the data-map insertion events. -/
def collect_local_agents (env : Env) (inner : Inner) :
    Inner × List (MetaOpKey × MetaOpData) :=
  match inner.local_agents with
  | [] => (inner, [])
  | a :: _ =>
    match env.query_agent_info_signed a with
    | .error _ => (inner, [])
    | .ok infos =>
      match collectInfos inner.data_map inner.has_hash [] infos with
      | (dm, hh, evs) => ({ inner with data_map := dm, has_hash := hh }, evs)

/-- The length-is-exactly-one check of the source on a fetch result,
together with the remove(0) extraction of the single pair. -/
def singletonPair : List (OpHash × Bytes) → Option (OpHash × Bytes)
  | [(kk, dd)] => some (kk, dd)
  | _ => none

/-- data_map_get of the source: serve from the cache; on a miss for an op
key fetch exactly one hash from the host, demand exactly one returned pair,
cache it under the returned key and return it; a miss on an agent-info key
is the first unreachable branch. -/
def data_map_get (env : Env) (a : Agent) (dm : DataMap) (tr : Trace)
    (k : MetaOpKey) : DataMap × Trace × KRes MetaOpData :=
  match dmGet dm k with
  | some d => (dm, tr, .ok d)
  | none =>
    match k with
    | .op h =>
      match env.fetch_op_hash_data a h with
      | .error _ =>
        (dm, { tr with fetched := tr.fetched ++ [(a, h)] }, .err .fail)
      | .ok l =>
        match singletonPair l with
        | some (kk, dd) =>
          (dmInsert dm (MetaOpKey.op kk) (MetaOpData.op kk dd),
           { tr with
              fetched := tr.fetched ++ [(a, h)],
              inserts := tr.inserts ++ [(MetaOpKey.op kk, MetaOpData.op kk dd)] },
           .ok (MetaOpData.op kk dd))
        | none =>
          (dm, { tr with fetched := tr.fetched ++ [(a, h)] }, .err .fail)
    | .agent _ _ => (dm, tr, .err .panicked)

/-- Innermost loop of local_sync: push every key of the old set that the
working set lacks, resolving its data and delivering it by gossip; the data
resolving to an agent-info record is the second unreachable branch. -/
def syncKeys (env : Env) (oldA newA : Agent) :
    DataMap → KeySet → Trace → List MetaOpKey →
      DataMap × KeySet × Trace × KRes Unit
  | dm, ns, tr, [] => (dm, ns, tr, .ok ())
  | dm, ns, tr, k :: ks =>
    if k ∈ ns then
      syncKeys env oldA newA dm ns tr ks
    else
      match data_map_get env oldA dm tr k with
      | (dm1, tr1, .err e) => (dm1, ns, tr1, .err e)
      | (dm1, tr1, .ok d) =>
        match d with
        | .op kk dd =>
          match env.gossip newA oldA kk dd with
          | .error _ =>
            (dm1, ns,
             { tr1 with gossips := tr1.gossips ++ [(newA, oldA, kk, dd)] },
             .err .fail)
          | .ok _ =>
            syncKeys env oldA newA dm1 (ksInsert ns k)
              { tr1 with gossips := tr1.gossips ++ [(newA, oldA, kk, dd)] } ks
        | .agent _ => (dm1, ns, tr1, .err .panicked)

/-- Middle loop of local_sync: walk the working copy of the index, skipping
the entry of the currently considered old agent. -/
def syncOld (env : Env) (oldA : Agent) (oldSet : KeySet) :
    DataMap → Trace → HasMap → DataMap × HasMap × Trace × KRes Unit
  | dm, tr, [] => (dm, [], tr, .ok ())
  | dm, tr, (newA, ns) :: rest =>
    if oldA = newA then
      match syncOld env oldA oldSet dm tr rest with
      | (dm1, rest1, tr1, r) => (dm1, (newA, ns) :: rest1, tr1, r)
    else
      match syncKeys env oldA newA dm ns tr oldSet with
      | (dm1, ns1, tr1, .err e) => (dm1, (newA, ns1) :: rest, tr1, .err e)
      | (dm1, ns1, tr1, .ok _) =>
        match syncOld env oldA oldSet dm1 tr1 rest with
        | (dm2, rest1, tr2, r) => (dm2, (newA, ns1) :: rest1, tr2, r)

/-- Outer loop of local_sync: walk the immutable snapshot of the index. -/
def syncAll (env : Env) :
    DataMap → Trace → HasMap → HasMap → DataMap × HasMap × Trace × KRes Unit
  | dm, tr, nhm, [] => (dm, nhm, tr, .ok ())
  | dm, tr, nhm, (oldA, oldSet) :: rest =>
    match syncOld env oldA oldSet dm tr nhm with
    | (dm1, nhm1, tr1, .err e) => (dm1, nhm1, tr1, .err e)
    | (dm1, nhm1, tr1, .ok _) => syncAll env dm1 tr1 nhm1 rest

/-- local_sync of the source: clone the index into a working copy, sync
every ordered agent pair, and only on success commit the working copy to
the has_hash field; the data map keeps whatever was cached before a
failure, exactly as the mutable borrow does in the source. -/
def local_sync (env : Env) (inner : Inner) : Inner × Trace × KRes Unit :=
  match syncAll env inner.data_map emptyTrace inner.has_hash inner.has_hash with
  | (dm, nhm, tr, .ok _) =>
    ({ inner with data_map := dm, has_hash := nhm }, tr, .ok ())
  | (dm, _, tr, .err e) => ({ inner with data_map := dm }, tr, .err e)

/-- Modelled from the spec: the bloomfilter crate is an external dependency,
not among the sampled files.  Per the spec a filter is built with a capacity
and a number of hash functions, supports set, and check has no false
negatives; check is embedded as exact membership over the keys that were
set, which reports negative on a freshly constructed filter.  The new
constructor records its two arguments; new_for_fp_rate sizes the filter for
the given item count at the fixed 1 percent target rate, whose derived hash
function count is float arithmetic in the crate and is recorded verbatim as
the standard seven for 1 percent. -/
structure Bloom where
  capacity : Nat
  hashFns : Nat
  keys : List MetaOpKey
deriving DecidableEq

def Bloom.new (capacity hashFns : Nat) : Bloom := ⟨capacity, hashFns, []⟩

def Bloom.newForFpRate (items : Nat) : Bloom := ⟨items, 7, []⟩

def Bloom.set (b : Bloom) (k : MetaOpKey) : Bloom :=
  { b with keys := ksInsert b.keys k }

def Bloom.check (b : Bloom) (k : MetaOpKey) : Bool := decide (k ∈ b.keys)

def bloomSetAll : Bloom → List MetaOpKey → Bloom
  | b, [] => b
  | b, k :: ks => bloomSetAll (b.set k) ks

/-- finish of the source: take the first index entry's key set as canonical
(all entries are identical after a successful sync); an empty index yields
the empty set and the degenerate filter new 1 1. -/
def finish (inner : Inner) : DataMap × KeySet × Bloom :=
  match inner.has_hash with
  | [] => (inner.data_map, [], Bloom.new 1 1)
  | (_, s) :: _ =>
    (inner.data_map, s, bloomSetAll (Bloom.newForFpRate s.length) s)

/-- Result and trace of one whole pass. -/
structure PassOut where
  result : KRes (DataMap × KeySet × Bloom)
  tr : Trace
deriving DecidableEq

/-- step_2_local_sync_inner of the source: fresh state, collect ops, collect
agents, local sync, finish; any local_sync error is propagated and the
collect stages are infallible. -/
def step_2_local_sync_inner (env : Env) (local_agents : List Agent) : PassOut :=
  match collect_local_agents env (collect_local_ops env (initInner local_agents)) with
  | (i2, ins) =>
    match local_sync env i2 with
    | (i3, tr, .ok _) =>
      ⟨.ok (finish i3), ⟨tr.fetched, ins ++ tr.inserts, tr.gossips⟩⟩
    | (_, tr, .err e) =>
      ⟨.err e, ⟨tr.fetched, ins ++ tr.inserts, tr.gossips⟩⟩

/-- A fetch_op_hash_data response that the source treats as fatal: an error
or a result whose length is not exactly one. -/
def badFetch (env : Env) (a : Agent) (h : OpHash) : Bool :=
  match env.fetch_op_hash_data a h with
  | .error _ => true
  | .ok l => l.length != 1

/-- A gossip (local delivery) response that the source treats as fatal. -/
def badGossip (env : Env) (g : Agent × Agent × OpHash × Bytes) : Bool :=
  match env.gossip g.1 g.2.1 g.2.2.1 g.2.2.2 with
  | .error _ => true
  | .ok _ => false

/-- Interface contract of fetch-op-data in the spec: the single returned
pair is for the single requested hash. -/
def HonestFetch (env : Env) : Prop :=
  ∀ a h kk dd, env.fetch_op_hash_data a h = .ok [(kk, dd)] → kk = h

/-- Interface contract of query-agent-info: records are identified by their
key, so two returned records with the same key are the same record. -/
def AgentKeyInj (env : Env) : Prop :=
  ∀ a infos, env.query_agent_info_signed a = .ok infos →
    ∀ i1, i1 ∈ infos → ∀ i2, i2 ∈ infos →
      (MetaOpData.agent i1).key = (MetaOpData.agent i2).key → i1 = i2

/-- Pointwise relation between two equally shaped association lists. -/
inductive EachRel (R : Agent × KeySet → Agent × KeySet → Prop) :
    HasMap → HasMap → Prop where
  | nil : EachRel R [] []
  | cons {p q : Agent × KeySet} {ps qs : HasMap} :
      R p q → EachRel R ps qs → EachRel R (p :: ps) (q :: qs)

/-- Effect of syncOld on one entry of the working index: unchanged agent,
and the set gains exactly the old set unless the entry is the old agent. -/
def EntryRel (oldA : Agent) (oldSet : KeySet) (p q : Agent × KeySet) : Prop :=
  q.1 = p.1 ∧ ∀ k, k ∈ q.2 ↔ (k ∈ p.2 ∨ (p.1 ≠ oldA ∧ k ∈ oldSet))

/-- Effect of syncAll on one entry of the working index: the set gains the
union of all other agents' snapshot sets. -/
def AllRel (old : HasMap) (p q : Agent × KeySet) : Prop :=
  q.1 = p.1 ∧
    ∀ k, k ∈ q.2 ↔ (k ∈ p.2 ∨ ∃ e, e ∈ old ∧ e.1 ≠ p.1 ∧ k ∈ e.2)

/-- Op keys in the data map are never bound to agent-info records. -/
def OpShaped (dm : DataMap) : Prop :=
  ∀ h i, dmGet dm (MetaOpKey.op h) ≠ some (MetaOpData.agent i)

/-- Every key the data map resolves has an agent-info shape. -/
def AllAgentDm (dm : DataMap) : Prop :=
  ∀ k v, dmGet dm k = some v → isAgentKey k = true

/-- No entry of the index holds an agent-info key. -/
def NoAgentKeys (hh : HasMap) : Prop :=
  ∀ p, p ∈ hh → ∀ k, k ∈ p.2 → isAgentKey k = false

/-- Every agent-info key held by an entry of the first index is present in
every entry of the second. -/
def AgentCovered (old nhm : HasMap) : Prop :=
  ∀ p, p ∈ old → ∀ k, k ∈ p.2 → isAgentKey k = true →
    ∀ q, q ∈ nhm → k ∈ q.2

/-- All fetch and gossip requests of a trace got well formed responses. -/
def GoodTr (env : Env) (tr : Trace) : Prop :=
  (∀ p, p ∈ tr.fetched → badFetch env p.1 p.2 = false) ∧
  (∀ g, g ∈ tr.gossips → badGossip env g = false)

/-- Every hash ever requested from fetch-op-data is now cached. -/
def FetchCached (dm : DataMap) (tr : Trace) : Prop :=
  ∀ p, p ∈ tr.fetched → dmGet dm (MetaOpKey.op p.2) ≠ none

/-- Every recorded insert event is the current binding of its key. -/
def InsCur (dm : DataMap) (evs : List (MetaOpKey × MetaOpData)) : Prop :=
  ∀ e, e ∈ evs → dmGet dm e.1 = some e.2

/-- Any two insert events on the same key carry the same record. -/
def Compat (evs : List (MetaOpKey × MetaOpData)) : Prop :=
  ∀ e1, e1 ∈ evs → ∀ e2, e2 ∈ evs → e1.1 = e2.1 → e1.2 = e2.2

/-- Every event key in the list is op shaped. -/
def OpEvs (evs : List (MetaOpKey × MetaOpData)) : Prop :=
  ∀ e, e ∈ evs → isAgentKey e.1 = false

/-- Every event key in the list is agent-info shaped. -/
def AgentEvs (evs : List (MetaOpKey × MetaOpData)) : Prop :=
  ∀ e, e ∈ evs → isAgentKey e.1 = true

/-- Everything the data map resolves came from the given record list. -/
def DmFrom (infos : List AgentInfoSigned) (dm : DataMap) : Prop :=
  ∀ k v, dmGet dm k = some v →
    ∃ i, i ∈ infos ∧ k = (MetaOpData.agent i).key ∧ v = MetaOpData.agent i

/-- One concrete signed agent-info record, for witnesses. -/
def infoA : AgentInfoSigned := ⟨7, 3, 5⟩

/-- Healthy concrete host: agent 0 holds ops 1 and 2, agent 1 holds op 3,
one shared agent-info record, faithful fetches, deliveries succeed. -/
def envA : Env :=
  ⟨fun a => if a = 0 then .ok [1, 2] else if a = 1 then .ok [3] else .ok [],
   fun _ => .ok [infoA],
   fun _ h => .ok [(h, [h])],
   fun _ _ _ _ => .ok ()⟩

/-- Concrete host whose op-data fetches fail, for the fatality claims. -/
def envFF : Env :=
  ⟨fun a => if a = 0 then .ok [1] else if a = 1 then .ok [2] else .ok [],
   fun _ => .error (),
   fun _ _ => .error (),
   fun _ _ _ _ => .ok ()⟩

/-- Concrete host whose op-hash queries fail but whose agent-info query
succeeds, for the collection-tolerance and universality claims. -/
def envCF : Env :=
  ⟨fun _ => .error (),
   fun _ => .ok [infoA],
   fun _ _ => .error (),
   fun _ _ _ _ => .ok ()⟩

/-- Concrete host on which every query fails. -/
def envCQ : Env :=
  ⟨fun _ => .error (),
   fun _ => .error (),
   fun _ _ => .error (),
   fun _ _ _ _ => .ok ()⟩

/-- Concrete pre-sync state for the reconciler-level witnesses. -/
def innerA : Inner :=
  ⟨[0, 1], [], [(0, [MetaOpKey.op 1]), (1, [MetaOpKey.op 2])]⟩

theorem mem_ksInsert {s : KeySet} {k q : MetaOpKey} :
    q ∈ ksInsert s k ↔ q ∈ s ∨ q = k := by
  by_cases h : k ∈ s
  · simp only [ksInsert, if_pos h]
    exact ⟨Or.inl, fun hq => hq.elim id fun e => e ▸ h⟩
  · simp [ksInsert, if_neg h]

theorem dmGet_dmInsert (dm : DataMap) (k q : MetaOpKey) (v : MetaOpData) :
    dmGet (dmInsert dm k v) q = if q = k then some v else dmGet dm q := rfl

theorem nodupFst_eq {hh : HasMap} (hnd : (hh.map Prod.fst).Nodup)
    {p q : Agent × KeySet} (hp : p ∈ hh) (hq : q ∈ hh) (hfst : p.1 = q.1) :
    p = q := by
  induction hh with
  | nil => cases hp
  | cons x rest ih =>
    rw [List.map_cons, List.nodup_cons] at hnd
    cases hp with
    | head =>
      cases hq with
      | head => rfl
      | tail _ hq1 =>
        have hm : q.1 ∈ rest.map Prod.fst := List.mem_map_of_mem Prod.fst hq1
        rw [← hfst] at hm
        exact absurd hm hnd.1
    | tail _ hp1 =>
      cases hq with
      | head =>
        have hm : p.1 ∈ rest.map Prod.fst := List.mem_map_of_mem Prod.fst hp1
        rw [hfst] at hm
        exact absurd hm hnd.1
      | tail _ hq1 => exact ih hnd.2 hp1 hq1

theorem EachRel.mem_right {R : Agent × KeySet → Agent × KeySet → Prop} :
    ∀ {xs ys : HasMap}, EachRel R xs ys →
      ∀ {q}, q ∈ ys → ∃ p, p ∈ xs ∧ R p q := by
  intro xs ys h
  induction h with
  | nil => intro q hq; cases hq
  | cons hr _ ih =>
    intro q hq
    cases hq with
    | head => exact ⟨_, List.mem_cons_self _ _, hr⟩
    | tail _ hq1 =>
      obtain ⟨p, hp, hrp⟩ := ih hq1
      exact ⟨p, List.mem_cons_of_mem _ hp, hrp⟩

theorem EachRel.comp {R S T : Agent × KeySet → Agent × KeySet → Prop}
    (hc : ∀ p q r, R p q → S q r → T p r) :
    ∀ {xs ys zs : HasMap}, EachRel R xs ys → EachRel S ys zs →
      EachRel T xs zs := by
  intro xs ys zs h1 h2
  induction h1 generalizing zs with
  | nil => cases h2; exact .nil
  | cons hr _ ih =>
    cases h2 with
    | cons hs h2tail => exact .cons (hc _ _ _ hr hs) (ih h2tail)

theorem EachRel.nil_right {R : Agent × KeySet → Agent × KeySet → Prop}
    {xs : HasMap} (h : EachRel R xs []) : xs = [] := by
  cases h; rfl

theorem EachRel_allnil : ∀ nhm : HasMap, EachRel (AllRel []) nhm nhm := by
  intro nhm
  induction nhm with
  | nil => exact .nil
  | cons p rest ih =>
    refine .cons ⟨rfl, fun k => ?_⟩ ih
    simp [AllRel]

theorem OpShaped_insert {dm : DataMap} (hs : OpShaped dm) (kk : OpHash)
    (dd : Bytes) :
    OpShaped (dmInsert dm (MetaOpKey.op kk) (MetaOpData.op kk dd)) := by
  intro h i
  rw [dmGet_dmInsert]
  split
  · simp
  · exact hs h i

theorem singletonPair_some {l : List (OpHash × Bytes)} {kk : OpHash}
    {dd : Bytes} (h : singletonPair l = some (kk, dd)) : l = [(kk, dd)] := by
  match l with
  | [] => simp [singletonPair] at h
  | [(a, b)] =>
    simp only [singletonPair, Option.some.injEq, Prod.mk.injEq] at h
    rw [h.1, h.2]
  | x :: y :: rest => simp [singletonPair] at h

theorem singletonPair_none {l : List (OpHash × Bytes)}
    (h : singletonPair l = none) : l.length ≠ 1 := by
  match l with
  | [] => simp
  | [(a, b)] => simp [singletonPair] at h
  | x :: y :: rest => simp only [List.length_cons]; omega

theorem dmg_opkey (env : Env) (a : Agent) (dm : DataMap) (tr : Trace)
    (h : OpHash) {dm1 : DataMap} {tr1 : Trace} {r : KRes MetaOpData}
    (heq : data_map_get env a dm tr (MetaOpKey.op h) = (dm1, tr1, r)) :
    (∃ d, dmGet dm (MetaOpKey.op h) = some d ∧ dm1 = dm ∧ tr1 = tr ∧
      r = .ok d) ∨
    (dmGet dm (MetaOpKey.op h) = none ∧
      tr1.fetched = tr.fetched ++ [(a, h)] ∧ tr1.gossips = tr.gossips ∧
      ((env.fetch_op_hash_data a h = .error () ∧ dm1 = dm ∧
          tr1.inserts = tr.inserts ∧ r = .err .fail) ∨
       (∃ l, env.fetch_op_hash_data a h = .ok l ∧ l.length ≠ 1 ∧ dm1 = dm ∧
          tr1.inserts = tr.inserts ∧ r = .err .fail) ∨
       (∃ kk dd, env.fetch_op_hash_data a h = .ok [(kk, dd)] ∧
          dm1 = dmInsert dm (MetaOpKey.op kk) (MetaOpData.op kk dd) ∧
          tr1.inserts = tr.inserts ++ [(MetaOpKey.op kk, MetaOpData.op kk dd)] ∧
          r = .ok (MetaOpData.op kk dd)))) := by
  simp only [data_map_get] at heq
  split at heq
  · rename_i d hget
    obtain ⟨rfl, rfl, rfl⟩ := Prod.mk.injEq .. ▸ heq
    exact Or.inl ⟨d, hget, rfl, rfl, rfl⟩
  · rename_i hget
    split at heq
    · rename_i u hf
      obtain ⟨rfl, rfl, rfl⟩ := Prod.mk.injEq .. ▸ heq
      exact Or.inr ⟨hget, rfl, rfl, Or.inl ⟨by cases u; exact hf, rfl, rfl, rfl⟩⟩
    · rename_i l hf
      split at heq
      · rename_i kk dd hsp
        obtain ⟨rfl, rfl, rfl⟩ := Prod.mk.injEq .. ▸ heq
        exact Or.inr ⟨hget, rfl, rfl, Or.inr (Or.inr ⟨kk, dd,
          singletonPair_some hsp ▸ hf, rfl, rfl, rfl⟩)⟩
      · rename_i hsp
        obtain ⟨rfl, rfl, rfl⟩ := Prod.mk.injEq .. ▸ heq
        exact Or.inr ⟨hget, rfl, rfl, Or.inr (Or.inl ⟨l, hf,
          singletonPair_none hsp, rfl, rfl, rfl⟩)⟩

theorem dmg_agentkey (env : Env) (a : Agent) (dm : DataMap) (tr : Trace)
    (b : Agent) (n : Nat) {dm1 : DataMap} {tr1 : Trace} {r : KRes MetaOpData}
    (heq : data_map_get env a dm tr (MetaOpKey.agent b n) = (dm1, tr1, r)) :
    (∃ d, dmGet dm (MetaOpKey.agent b n) = some d ∧ dm1 = dm ∧ tr1 = tr ∧
      r = .ok d) ∨
    (dmGet dm (MetaOpKey.agent b n) = none ∧ dm1 = dm ∧ tr1 = tr ∧
      r = .err .panicked) := by
  simp only [data_map_get] at heq
  split at heq
  · rename_i d hget
    obtain ⟨rfl, rfl, rfl⟩ := Prod.mk.injEq .. ▸ heq
    exact Or.inl ⟨d, hget, rfl, rfl, rfl⟩
  · rename_i hget
    obtain ⟨rfl, rfl, rfl⟩ := Prod.mk.injEq .. ▸ heq
    exact Or.inr ⟨hget, rfl, rfl, rfl⟩

theorem syncKeys_ok_mem (env : Env) (oldA newA : Agent) :
    ∀ (ks : List MetaOpKey) (dm : DataMap) (ns : KeySet) (tr : Trace)
      {dm1 : DataMap} {ns1 : KeySet} {tr1 : Trace},
      syncKeys env oldA newA dm ns tr ks = (dm1, ns1, tr1, KRes.ok ()) →
      ∀ q, q ∈ ns1 ↔ (q ∈ ns ∨ q ∈ ks) := by
  intro ks
  induction ks with
  | nil =>
    intro dm ns tr dm1 ns1 tr1 h q
    simp only [syncKeys, Prod.mk.injEq] at h
    obtain ⟨-, rfl, -⟩ := h
    simp
  | cons k ks ih =>
    intro dm ns tr dm1 ns1 tr1 h q
    simp only [syncKeys] at h
    split at h
    · rename_i hk
      rw [ih dm ns tr h q, List.mem_cons]
      constructor
      · rintro (hq | hq)
        · exact Or.inl hq
        · exact Or.inr (Or.inr hq)
      · rintro (hq | rfl | hq)
        · exact Or.inl hq
        · exact Or.inl hk
        · exact Or.inr hq
    · rename_i hk
      split at h
      · simp at h
      · rename_i dm2 tr2 d hdg
        split at h
        · rename_i kk dd
          split at h
          · simp at h
          · rw [ih _ _ _ h q, mem_ksInsert, List.mem_cons]
            tauto
        · simp at h

theorem syncKeys_no_panic (env : Env) (oldA newA : Agent) :
    ∀ (ks : List MetaOpKey) (dm : DataMap) (ns : KeySet) (tr : Trace)
      {dm1 : DataMap} {ns1 : KeySet} {tr1 : Trace} {r : KRes Unit},
      syncKeys env oldA newA dm ns tr ks = (dm1, ns1, tr1, r) →
      OpShaped dm →
      (∀ k, k ∈ ks → isAgentKey k = true → k ∈ ns) →
      r ≠ KRes.err PassErr.panicked ∧ OpShaped dm1 := by
  intro ks
  induction ks with
  | nil =>
    intro dm ns tr dm1 ns1 tr1 r h hs _
    simp only [syncKeys, Prod.mk.injEq] at h
    obtain ⟨rfl, -, -, rfl⟩ := h
    exact ⟨nofun, hs⟩
  | cons k ks ih =>
    intro dm ns tr dm1 ns1 tr1 r h hs hag
    simp only [syncKeys] at h
    split at h
    · exact ih dm ns tr h hs fun q hq => hag q (List.mem_cons_of_mem _ hq)
    · rename_i hk
      cases k with
      | agent b n => exact absurd (hag _ (List.mem_cons_self _ _) rfl) hk
      | op hsh =>
        split at h
        · rename_i dm2 tr2 e hdg
          simp only [Prod.mk.injEq] at h
          obtain ⟨rfl, -, -, rfl⟩ := h
          rcases dmg_opkey env oldA dm tr hsh hdg with
            ⟨d2, -, -, -, hok⟩ |
            ⟨-, -, -, ⟨-, rfl, -, he⟩ | ⟨l, -, -, rfl, -, he⟩ |
              ⟨kk, dd, -, -, -, he⟩⟩
          · simp at hok
          · injection he with he1
            rw [he1]
            exact ⟨nofun, hs⟩
          · injection he with he1
            rw [he1]
            exact ⟨nofun, hs⟩
          · simp at he
        · rename_i dm2 tr2 d hdg
          split at h
          · rename_i kk dd
            have hs2 : OpShaped dm2 := by
              rcases dmg_opkey env oldA dm tr hsh hdg with
                ⟨d2, -, rfl, -, -⟩ |
                ⟨-, -, -, ⟨-, -, -, he⟩ | ⟨l, -, -, -, -, he⟩ |
                  ⟨kk2, dd2, -, rfl, -, -⟩⟩
              · exact hs
              · simp at he
              · simp at he
              · exact OpShaped_insert hs kk2 dd2
            split at h
            · simp only [Prod.mk.injEq] at h
              obtain ⟨rfl, -, -, rfl⟩ := h
              exact ⟨nofun, hs2⟩
            · exact ih dm2 _ _ h hs2 fun q hq hq2 =>
                mem_ksInsert.mpr (Or.inl (hag q (List.mem_cons_of_mem _ hq) hq2))
          · rename_i i
            exfalso
            rcases dmg_opkey env oldA dm tr hsh hdg with
              ⟨d2, hget2, -, -, hok⟩ |
              ⟨-, -, -, ⟨-, -, -, he⟩ | ⟨l, -, -, -, -, he⟩ |
                ⟨kk2, dd2, -, -, -, he⟩⟩
            · injection hok with hok1
              rw [← hok1] at hget2
              exact hs hsh i hget2
            · simp at he
            · simp at he
            · simp at he

theorem GoodTr_ext {env : Env} {tr tr2 : Trace} (h : GoodTr env tr)
    (hf : ∀ p, p ∈ tr2.fetched → p ∈ tr.fetched ∨ badFetch env p.1 p.2 = false)
    (hg : ∀ g, g ∈ tr2.gossips → g ∈ tr.gossips ∨ badGossip env g = false) :
    GoodTr env tr2 := by
  constructor
  · intro p hp
    rcases hf p hp with hp1 | hp1
    · exact h.1 p hp1
    · exact hp1
  · intro g hgm
    rcases hg g hgm with hg1 | hg1
    · exact h.2 g hg1
    · exact hg1

theorem syncKeys_good (env : Env) (oldA newA : Agent) :
    ∀ (ks : List MetaOpKey) (dm : DataMap) (ns : KeySet) (tr : Trace)
      {dm1 : DataMap} {ns1 : KeySet} {tr1 : Trace},
      syncKeys env oldA newA dm ns tr ks = (dm1, ns1, tr1, KRes.ok ()) →
      GoodTr env tr → GoodTr env tr1 := by
  intro ks
  induction ks with
  | nil =>
    intro dm ns tr dm1 ns1 tr1 h hg
    simp only [syncKeys, Prod.mk.injEq] at h
    obtain ⟨-, -, rfl, -⟩ := h
    exact hg
  | cons k ks ih =>
    intro dm ns tr dm1 ns1 tr1 h hg
    simp only [syncKeys] at h
    split at h
    · exact ih dm ns tr h hg
    · rename_i hk
      split at h
      · simp at h
      · rename_i dm2 tr2 d hdg
        split at h
        · rename_i kk dd
          have hg2 : GoodTr env tr2 := by
            cases k with
            | agent b n =>
              rcases dmg_agentkey env oldA dm tr b n hdg with
                ⟨d2, -, -, rfl, -⟩ | ⟨-, -, -, he⟩
              · exact hg
              · simp at he
            | op hsh =>
              rcases dmg_opkey env oldA dm tr hsh hdg with
                ⟨d2, -, -, rfl, -⟩ |
                ⟨-, hfet, hgos, ⟨-, -, -, he⟩ | ⟨l, -, -, -, -, he⟩ |
                  ⟨kk2, dd2, hf, -, -, -⟩⟩
              · exact hg
              · simp at he
              · simp at he
              · refine GoodTr_ext hg (fun p hp => ?_) (fun g hgm => ?_)
                · rw [hfet, List.mem_append] at hp
                  rcases hp with hp | hp
                  · exact Or.inl hp
                  · simp only [List.mem_singleton] at hp
                    rw [hp]
                    simp [badFetch, hf]
                · rw [hgos] at hgm
                  exact Or.inl hgm
          split at h
          · simp at h
          · rename_i u hgos2
            refine ih dm2 _ _ h (GoodTr_ext hg2 (fun p hp => Or.inl hp)
              (fun g hgm => ?_))
            simp only [List.mem_append, List.mem_singleton] at hgm
            rcases hgm with hgm | hgm
            · exact Or.inl hgm
            · rw [hgm]
              simp [badGossip, hgos2]
        · simp at h

theorem dmGet_insert_ne_none {dm : DataMap} {k q : MetaOpKey} {v : MetaOpData}
    (h : dmGet dm q ≠ none) : dmGet (dmInsert dm k v) q ≠ none := by
  rw [dmGet_dmInsert]
  split
  · simp
  · exact h

theorem nodup_snoc {α : Type} {l : List α} {x : α} (h : l.Nodup) (hx : x ∉ l) :
    (l ++ [x]).Nodup := by
  rw [List.nodup_append]
  exact ⟨h, List.nodup_singleton x,
    fun a ha hb => hx ((List.mem_singleton.mp hb) ▸ ha)⟩

theorem fetch_not_mem {dm : DataMap} {tr : Trace} {hsh : OpHash}
    (hc : FetchCached dm tr) (hget : dmGet dm (MetaOpKey.op hsh) = none) :
    hsh ∉ tr.fetched.map Prod.snd := by
  intro hmem
  obtain ⟨p, hp, hp2⟩ := List.mem_map.mp hmem
  exact hc p hp (hp2.symm ▸ hget)

theorem fetchNodup_snoc {dm : DataMap} {tr : Trace} {a : Agent} {hsh : OpHash}
    (hc : FetchCached dm tr) (hnd : (tr.fetched.map Prod.snd).Nodup)
    (hget : dmGet dm (MetaOpKey.op hsh) = none) :
    ((tr.fetched ++ [(a, hsh)]).map Prod.snd).Nodup := by
  simp only [List.map_append, List.map_cons, List.map_nil]
  exact nodup_snoc hnd (fetch_not_mem hc hget)

theorem fetchCached_mono {dm : DataMap} {tr : Trace} (hc : FetchCached dm tr)
    (k : MetaOpKey) (v : MetaOpData) : FetchCached (dmInsert dm k v) tr :=
  fun p hp => dmGet_insert_ne_none (hc p hp)

theorem syncKeys_fetch (env : Env) (oldA newA : Agent)
    (hon : HonestFetch env) :
    ∀ (ks : List MetaOpKey) (dm : DataMap) (ns : KeySet) (tr : Trace)
      {dm1 : DataMap} {ns1 : KeySet} {tr1 : Trace} {r : KRes Unit},
      syncKeys env oldA newA dm ns tr ks = (dm1, ns1, tr1, r) →
      FetchCached dm tr → (tr.fetched.map Prod.snd).Nodup →
      (tr1.fetched.map Prod.snd).Nodup ∧
        (r = KRes.ok () → FetchCached dm1 tr1) := by
  intro ks
  induction ks with
  | nil =>
    intro dm ns tr dm1 ns1 tr1 r h hc hnd
    simp only [syncKeys, Prod.mk.injEq] at h
    obtain ⟨rfl, -, rfl, rfl⟩ := h
    exact ⟨hnd, fun _ => hc⟩
  | cons k ks ih =>
    intro dm ns tr dm1 ns1 tr1 r h hc hnd
    simp only [syncKeys] at h
    split at h
    · exact ih dm ns tr h hc hnd
    · rename_i hk
      split at h
      · rename_i dm2 tr2 e hdg
        simp only [Prod.mk.injEq] at h
        obtain ⟨rfl, -, rfl, rfl⟩ := h
        refine ⟨?_, nofun⟩
        cases k with
        | agent b n =>
          rcases dmg_agentkey env oldA dm tr b n hdg with
            ⟨d2, -, -, -, he⟩ | ⟨-, -, rfl, -⟩
          · simp at he
          · exact hnd
        | op hsh =>
          rcases dmg_opkey env oldA dm tr hsh hdg with
            ⟨d2, -, -, -, he⟩ |
            ⟨hget, hfet, -, ⟨-, -, -, -⟩ | ⟨l, -, -, -, -, -⟩ |
              ⟨kk2, dd2, -, -, -, he⟩⟩
          · simp at he
          · rw [hfet]
            exact fetchNodup_snoc hc hnd hget
          · rw [hfet]
            exact fetchNodup_snoc hc hnd hget
          · simp at he
      · rename_i dm2 tr2 d hdg
        have hmid : FetchCached dm2 tr2 ∧ (tr2.fetched.map Prod.snd).Nodup := by
          cases k with
          | agent b n =>
            rcases dmg_agentkey env oldA dm tr b n hdg with
              ⟨d2, -, rfl, rfl, -⟩ | ⟨-, rfl, rfl, -⟩
            · exact ⟨hc, hnd⟩
            · exact ⟨hc, hnd⟩
          | op hsh =>
            rcases dmg_opkey env oldA dm tr hsh hdg with
              ⟨d2, -, rfl, rfl, -⟩ |
              ⟨hget, hfet, -, ⟨-, -, -, he⟩ | ⟨l, -, -, -, -, he⟩ |
                ⟨kk2, dd2, hf, rfl, -, -⟩⟩
            · exact ⟨hc, hnd⟩
            · simp at he
            · simp at he
            · have hkk : kk2 = hsh := hon oldA hsh kk2 dd2 hf
              constructor
              · intro p hp
                rw [hfet, List.mem_append] at hp
                rcases hp with hp | hp
                · exact dmGet_insert_ne_none (hc p hp)
                · simp only [List.mem_singleton] at hp
                  rw [hp]
                  rw [hkk, dmGet_dmInsert]
                  simp
              · rw [hfet]
                exact fetchNodup_snoc hc hnd hget
        split at h
        · rename_i kk dd
          split at h
          · simp only [Prod.mk.injEq] at h
            obtain ⟨rfl, -, rfl, rfl⟩ := h
            exact ⟨hmid.2, nofun⟩
          · exact ih dm2 _ _ h hmid.1 hmid.2
        · simp only [Prod.mk.injEq] at h
          obtain ⟨rfl, -, rfl, rfl⟩ := h
          exact ⟨hmid.2, nofun⟩

theorem compat_snoc_new {dm : DataMap} {evs : List (MetaOpKey × MetaOpData)}
    {k0 : MetaOpKey} {v0 : MetaOpData}
    (hcur : InsCur dm evs) (hcomp : Compat evs)
    (hnew : dmGet dm k0 = none) :
    Compat (evs ++ [(k0, v0)]) ∧
      InsCur (dmInsert dm k0 v0) (evs ++ [(k0, v0)]) := by
  have hkey : ∀ e, e ∈ evs → e.1 ≠ k0 := by
    intro e he hcon
    have hcur2 := hcur e he
    rw [hcon, hnew] at hcur2
    cases hcur2
  constructor
  · intro e1 h1 e2 h2 hk12
    rw [List.mem_append, List.mem_singleton] at h1 h2
    rcases h1 with h1 | rfl
    · rcases h2 with h2 | rfl
      · exact hcomp e1 h1 e2 h2 hk12
      · exact absurd hk12 (hkey e1 h1)
    · rcases h2 with h2 | rfl
      · exact absurd hk12.symm (hkey e2 h2)
      · rfl
  · intro e he
    rw [List.mem_append, List.mem_singleton] at he
    rcases he with he | rfl
    · rw [dmGet_dmInsert, if_neg (hkey e he)]
      exact hcur e he
    · rw [dmGet_dmInsert, if_pos rfl]

theorem syncKeys_compat (env : Env) (oldA newA : Agent)
    (hon : HonestFetch env) :
    ∀ (ks : List MetaOpKey) (dm : DataMap) (ns : KeySet) (tr : Trace)
      {dm1 : DataMap} {ns1 : KeySet} {tr1 : Trace} {r : KRes Unit},
      syncKeys env oldA newA dm ns tr ks = (dm1, ns1, tr1, r) →
      InsCur dm tr.inserts → Compat tr.inserts → OpEvs tr.inserts →
      Compat tr1.inserts ∧ OpEvs tr1.inserts ∧
        (r = KRes.ok () → InsCur dm1 tr1.inserts) := by
  intro ks
  induction ks with
  | nil =>
    intro dm ns tr dm1 ns1 tr1 r h hcur hcomp hope
    simp only [syncKeys, Prod.mk.injEq] at h
    obtain ⟨rfl, -, rfl, rfl⟩ := h
    exact ⟨hcomp, hope, fun _ => hcur⟩
  | cons k ks ih =>
    intro dm ns tr dm1 ns1 tr1 r h hcur hcomp hope
    simp only [syncKeys] at h
    split at h
    · exact ih dm ns tr h hcur hcomp hope
    · rename_i hk
      split at h
      · rename_i dm2 tr2 e hdg
        simp only [Prod.mk.injEq] at h
        obtain ⟨rfl, -, rfl, rfl⟩ := h
        refine ?_
        cases k with
        | agent b n =>
          rcases dmg_agentkey env oldA dm tr b n hdg with
            ⟨d2, -, -, -, he⟩ | ⟨-, -, rfl, -⟩
          · simp at he
          · exact ⟨hcomp, hope, nofun⟩
        | op hsh =>
          rcases dmg_opkey env oldA dm tr hsh hdg with
            ⟨d2, -, -, -, he⟩ |
            ⟨hget, -, -, ⟨-, -, hins, -⟩ | ⟨l, -, -, -, hins, -⟩ |
              ⟨kk2, dd2, -, -, -, he⟩⟩
          · simp at he
          · rw [hins]
            exact ⟨hcomp, hope, nofun⟩
          · rw [hins]
            exact ⟨hcomp, hope, nofun⟩
          · simp at he
      · rename_i dm2 tr2 d hdg
        have hmid : Compat tr2.inserts ∧ OpEvs tr2.inserts ∧
            InsCur dm2 tr2.inserts := by
          cases k with
          | agent b n =>
            rcases dmg_agentkey env oldA dm tr b n hdg with
              ⟨d2, -, rfl, rfl, -⟩ | ⟨-, rfl, rfl, -⟩
            · exact ⟨hcomp, hope, hcur⟩
            · exact ⟨hcomp, hope, hcur⟩
          | op hsh =>
            rcases dmg_opkey env oldA dm tr hsh hdg with
              ⟨d2, -, rfl, rfl, -⟩ |
              ⟨hget, -, -, ⟨-, -, -, he⟩ | ⟨l, -, -, -, -, he⟩ |
                ⟨kk2, dd2, hf, rfl, hins, -⟩⟩
            · exact ⟨hcomp, hope, hcur⟩
            · simp at he
            · simp at he
            · have hkk : kk2 = hsh := hon oldA hsh kk2 dd2 hf
              rw [hins, hkk]
              have hsn := @compat_snoc_new dm tr.inserts (MetaOpKey.op hsh)
                (MetaOpData.op hsh dd2) hcur hcomp hget
              refine ⟨hsn.1, ?_, hsn.2⟩
              intro e he
              rw [List.mem_append, List.mem_singleton] at he
              rcases he with he | rfl
              · exact hope e he
              · rfl
        split at h
        · rename_i kk dd
          split at h
          · simp only [Prod.mk.injEq] at h
            obtain ⟨rfl, -, rfl, rfl⟩ := h
            exact ⟨hmid.1, hmid.2.1, nofun⟩
          · exact ih dm2 _ _ h hmid.2.2 hmid.1 hmid.2.1
        · simp only [Prod.mk.injEq] at h
          obtain ⟨rfl, -, rfl, rfl⟩ := h
          exact ⟨hmid.1, hmid.2.1, nofun⟩

theorem syncOld_ok_mem (env : Env) (oldA : Agent) (oldSet : KeySet) :
    ∀ (nhm : HasMap) (dm : DataMap) (tr : Trace)
      {dm1 : DataMap} {nhm1 : HasMap} {tr1 : Trace},
      syncOld env oldA oldSet dm tr nhm = (dm1, nhm1, tr1, KRes.ok ()) →
      EachRel (EntryRel oldA oldSet) nhm nhm1 := by
  intro nhm
  induction nhm with
  | nil =>
    intro dm tr dm1 nhm1 tr1 h
    simp only [syncOld, Prod.mk.injEq] at h
    obtain ⟨-, rfl, -, -⟩ := h
    exact .nil
  | cons p rest ih =>
    intro dm tr dm1 nhm1 tr1 h
    obtain ⟨newA, ns⟩ := p
    simp only [syncOld] at h
    split at h
    · rename_i heq
      rcases hro : syncOld env oldA oldSet dm tr rest with ⟨dm2, rest2, tr2, r2⟩
      rw [hro] at h
      simp only [Prod.mk.injEq] at h
      obtain ⟨rfl, rfl, rfl, rfl⟩ := h
      refine .cons ⟨rfl, fun k => ?_⟩ (ih dm tr hro)
      constructor
      · exact Or.inl
      · rintro (hk | ⟨hne, -⟩)
        · exact hk
        · exact absurd heq.symm hne
    · rename_i hne
      rcases hsk : syncKeys env oldA newA dm ns tr oldSet with ⟨dm2, ns2, tr2, r2⟩
      rw [hsk] at h
      cases r2 with
      | err e =>
        simp only [Prod.mk.injEq] at h
        obtain ⟨rfl, rfl, rfl, h4⟩ := h
        cases h4
      | ok u =>
        cases u
        simp only at h
        rcases hro : syncOld env oldA oldSet dm2 tr2 rest with
          ⟨dm3, rest2, tr3, r3⟩
        rw [hro] at h
        simp only [Prod.mk.injEq] at h
        obtain ⟨rfl, rfl, rfl, rfl⟩ := h
        refine .cons ⟨rfl, fun k => ?_⟩ (ih dm2 tr2 hro)
        rw [syncKeys_ok_mem env oldA newA oldSet dm ns tr hsk k]
        constructor
        · rintro (hk | hk)
          · exact Or.inl hk
          · exact Or.inr ⟨fun hc => hne hc.symm, hk⟩
        · rintro (hk | ⟨-, hk⟩)
          · exact Or.inl hk
          · exact Or.inr hk

theorem syncOld_no_panic (env : Env) (oldA : Agent) (oldSet : KeySet) :
    ∀ (nhm : HasMap) (dm : DataMap) (tr : Trace)
      {dm1 : DataMap} {nhm1 : HasMap} {tr1 : Trace} {r : KRes Unit},
      syncOld env oldA oldSet dm tr nhm = (dm1, nhm1, tr1, r) →
      OpShaped dm →
      (∀ q, q ∈ nhm → ∀ k, k ∈ oldSet → isAgentKey k = true → k ∈ q.2) →
      r ≠ KRes.err PassErr.panicked ∧ OpShaped dm1 := by
  intro nhm
  induction nhm with
  | nil =>
    intro dm tr dm1 nhm1 tr1 r h hs hag
    simp only [syncOld, Prod.mk.injEq] at h
    obtain ⟨rfl, -, -, rfl⟩ := h
    exact ⟨nofun, hs⟩
  | cons p rest ih =>
    intro dm tr dm1 nhm1 tr1 r h hs hag
    obtain ⟨newA, ns⟩ := p
    simp only [syncOld] at h
    split at h
    · rcases hro : syncOld env oldA oldSet dm tr rest with ⟨dm2, rest2, tr2, r2⟩
      rw [hro] at h
      simp only [Prod.mk.injEq] at h
      obtain ⟨rfl, -, -, rfl⟩ := h
      exact ih dm tr hro hs fun q hq => hag q (List.mem_cons_of_mem _ hq)
    · rename_i hne
      rcases hsk : syncKeys env oldA newA dm ns tr oldSet with
        ⟨dm2, ns2, tr2, r2⟩
      rw [hsk] at h
      have hag0 : ∀ k, k ∈ oldSet → isAgentKey k = true → k ∈ ns :=
        fun k hk ha => hag (newA, ns) (List.mem_cons_self _ _) k hk ha
      have hsk2 := syncKeys_no_panic env oldA newA oldSet dm ns tr hsk hs hag0
      cases r2 with
      | err e =>
        simp only [Prod.mk.injEq] at h
        obtain ⟨rfl, -, -, rfl⟩ := h
        exact hsk2
      | ok u =>
        cases u
        simp only at h
        rcases hro : syncOld env oldA oldSet dm2 tr2 rest with
          ⟨dm3, rest2, tr3, r3⟩
        rw [hro] at h
        simp only [Prod.mk.injEq] at h
        obtain ⟨rfl, -, -, rfl⟩ := h
        exact ih dm2 tr2 hro hsk2.2 fun q hq => hag q (List.mem_cons_of_mem _ hq)

theorem syncOld_good (env : Env) (oldA : Agent) (oldSet : KeySet) :
    ∀ (nhm : HasMap) (dm : DataMap) (tr : Trace)
      {dm1 : DataMap} {nhm1 : HasMap} {tr1 : Trace},
      syncOld env oldA oldSet dm tr nhm = (dm1, nhm1, tr1, KRes.ok ()) →
      GoodTr env tr → GoodTr env tr1 := by
  intro nhm
  induction nhm with
  | nil =>
    intro dm tr dm1 nhm1 tr1 h hg
    simp only [syncOld, Prod.mk.injEq] at h
    obtain ⟨-, -, rfl, -⟩ := h
    exact hg
  | cons p rest ih =>
    intro dm tr dm1 nhm1 tr1 h hg
    obtain ⟨newA, ns⟩ := p
    simp only [syncOld] at h
    split at h
    · rcases hro : syncOld env oldA oldSet dm tr rest with ⟨dm2, rest2, tr2, r2⟩
      rw [hro] at h
      simp only [Prod.mk.injEq] at h
      obtain ⟨-, -, rfl, h4⟩ := h
      rw [h4] at hro
      exact ih dm tr hro hg
    · rcases hsk : syncKeys env oldA newA dm ns tr oldSet with
        ⟨dm2, ns2, tr2, r2⟩
      rw [hsk] at h
      cases r2 with
      | err e =>
        simp only [Prod.mk.injEq] at h
        obtain ⟨-, -, -, h4⟩ := h
        cases h4
      | ok u =>
        cases u
        simp only at h
        rcases hro : syncOld env oldA oldSet dm2 tr2 rest with
          ⟨dm3, rest2, tr3, r3⟩
        rw [hro] at h
        simp only [Prod.mk.injEq] at h
        obtain ⟨-, -, rfl, h4⟩ := h
        rw [h4] at hro
        exact ih dm2 tr2 hro (syncKeys_good env oldA newA oldSet dm ns tr hsk hg)

theorem syncOld_fetch (env : Env) (oldA : Agent) (oldSet : KeySet)
    (hon : HonestFetch env) :
    ∀ (nhm : HasMap) (dm : DataMap) (tr : Trace)
      {dm1 : DataMap} {nhm1 : HasMap} {tr1 : Trace} {r : KRes Unit},
      syncOld env oldA oldSet dm tr nhm = (dm1, nhm1, tr1, r) →
      FetchCached dm tr → (tr.fetched.map Prod.snd).Nodup →
      (tr1.fetched.map Prod.snd).Nodup ∧
        (r = KRes.ok () → FetchCached dm1 tr1) := by
  intro nhm
  induction nhm with
  | nil =>
    intro dm tr dm1 nhm1 tr1 r h hc hnd
    simp only [syncOld, Prod.mk.injEq] at h
    obtain ⟨rfl, -, rfl, rfl⟩ := h
    exact ⟨hnd, fun _ => hc⟩
  | cons p rest ih =>
    intro dm tr dm1 nhm1 tr1 r h hc hnd
    obtain ⟨newA, ns⟩ := p
    simp only [syncOld] at h
    split at h
    · rcases hro : syncOld env oldA oldSet dm tr rest with ⟨dm2, rest2, tr2, r2⟩
      rw [hro] at h
      simp only [Prod.mk.injEq] at h
      obtain ⟨rfl, -, rfl, rfl⟩ := h
      exact ih dm tr hro hc hnd
    · rcases hsk : syncKeys env oldA newA dm ns tr oldSet with
        ⟨dm2, ns2, tr2, r2⟩
      rw [hsk] at h
      have hsk2 := syncKeys_fetch env oldA newA hon oldSet dm ns tr hsk hc hnd
      cases r2 with
      | err e =>
        simp only [Prod.mk.injEq] at h
        obtain ⟨rfl, -, rfl, rfl⟩ := h
        exact ⟨hsk2.1, nofun⟩
      | ok u =>
        cases u
        simp only at h
        rcases hro : syncOld env oldA oldSet dm2 tr2 rest with
          ⟨dm3, rest2, tr3, r3⟩
        rw [hro] at h
        simp only [Prod.mk.injEq] at h
        obtain ⟨rfl, -, rfl, rfl⟩ := h
        exact ih dm2 tr2 hro (hsk2.2 rfl) hsk2.1

theorem syncOld_compat (env : Env) (oldA : Agent) (oldSet : KeySet)
    (hon : HonestFetch env) :
    ∀ (nhm : HasMap) (dm : DataMap) (tr : Trace)
      {dm1 : DataMap} {nhm1 : HasMap} {tr1 : Trace} {r : KRes Unit},
      syncOld env oldA oldSet dm tr nhm = (dm1, nhm1, tr1, r) →
      InsCur dm tr.inserts → Compat tr.inserts → OpEvs tr.inserts →
      Compat tr1.inserts ∧ OpEvs tr1.inserts ∧
        (r = KRes.ok () → InsCur dm1 tr1.inserts) := by
  intro nhm
  induction nhm with
  | nil =>
    intro dm tr dm1 nhm1 tr1 r h hcur hcomp hope
    simp only [syncOld, Prod.mk.injEq] at h
    obtain ⟨rfl, -, rfl, rfl⟩ := h
    exact ⟨hcomp, hope, fun _ => hcur⟩
  | cons p rest ih =>
    intro dm tr dm1 nhm1 tr1 r h hcur hcomp hope
    obtain ⟨newA, ns⟩ := p
    simp only [syncOld] at h
    split at h
    · rcases hro : syncOld env oldA oldSet dm tr rest with ⟨dm2, rest2, tr2, r2⟩
      rw [hro] at h
      simp only [Prod.mk.injEq] at h
      obtain ⟨rfl, -, rfl, rfl⟩ := h
      exact ih dm tr hro hcur hcomp hope
    · rcases hsk : syncKeys env oldA newA dm ns tr oldSet with
        ⟨dm2, ns2, tr2, r2⟩
      rw [hsk] at h
      have hsk2 := syncKeys_compat env oldA newA hon oldSet dm ns tr hsk hcur
        hcomp hope
      cases r2 with
      | err e =>
        simp only [Prod.mk.injEq] at h
        obtain ⟨rfl, -, rfl, rfl⟩ := h
        exact ⟨hsk2.1, hsk2.2.1, nofun⟩
      | ok u =>
        cases u
        simp only at h
        rcases hro : syncOld env oldA oldSet dm2 tr2 rest with
          ⟨dm3, rest2, tr3, r3⟩
        rw [hro] at h
        simp only [Prod.mk.injEq] at h
        obtain ⟨rfl, -, rfl, rfl⟩ := h
        exact ih dm2 tr2 hro (hsk2.2.2 rfl) hsk2.1 hsk2.2.1

theorem entry_all_comp (oldA : Agent) (oldSet : KeySet) (rest : HasMap) :
    ∀ p q r, EntryRel oldA oldSet p q → AllRel rest q r →
      AllRel ((oldA, oldSet) :: rest) p r := by
  rintro p q r ⟨hq1, hq2⟩ ⟨hr1, hr2⟩
  refine ⟨hr1.trans hq1, fun k => ?_⟩
  rw [hr2 k, hq2 k, hq1]
  constructor
  · rintro ((hk | ⟨hne, hk⟩) | ⟨e, he, hne, hk⟩)
    · exact Or.inl hk
    · exact Or.inr ⟨(oldA, oldSet), List.mem_cons_self _ _,
        fun hc => hne hc.symm, hk⟩
    · exact Or.inr ⟨e, List.mem_cons_of_mem _ he, hne, hk⟩
  · rintro (hk | ⟨e, he, hne, hk⟩)
    · exact Or.inl (Or.inl hk)
    · rcases List.mem_cons.mp he with rfl | he2
      · exact Or.inl (Or.inr ⟨fun hc => hne hc.symm, hk⟩)
      · exact Or.inr ⟨e, he2, hne, hk⟩

theorem syncAll_ok_mem (env : Env) :
    ∀ (old : HasMap) (dm : DataMap) (tr : Trace) (nhm : HasMap)
      {dm1 : DataMap} {nhm1 : HasMap} {tr1 : Trace},
      syncAll env dm tr nhm old = (dm1, nhm1, tr1, KRes.ok ()) →
      EachRel (AllRel old) nhm nhm1 := by
  intro old
  induction old with
  | nil =>
    intro dm tr nhm dm1 nhm1 tr1 h
    simp only [syncAll, Prod.mk.injEq] at h
    obtain ⟨-, rfl, -, -⟩ := h
    exact EachRel_allnil nhm
  | cons p rest ih =>
    intro dm tr nhm dm1 nhm1 tr1 h
    obtain ⟨oldA, oldSet⟩ := p
    simp only [syncAll] at h
    rcases hso : syncOld env oldA oldSet dm tr nhm with ⟨dm2, nhm2, tr2, r2⟩
    rw [hso] at h
    cases r2 with
    | err e =>
      simp only [Prod.mk.injEq] at h
      obtain ⟨-, -, -, h4⟩ := h
      cases h4
    | ok u =>
      cases u
      simp only at h
      exact EachRel.comp (entry_all_comp oldA oldSet rest)
        (syncOld_ok_mem env oldA oldSet nhm dm tr hso) (ih dm2 tr2 nhm2 h)

theorem syncAll_no_panic (env : Env) :
    ∀ (old : HasMap) (dm : DataMap) (tr : Trace) (nhm : HasMap)
      {dm1 : DataMap} {nhm1 : HasMap} {tr1 : Trace} {r : KRes Unit},
      syncAll env dm tr nhm old = (dm1, nhm1, tr1, r) →
      OpShaped dm → AgentCovered old nhm →
      r ≠ KRes.err PassErr.panicked := by
  intro old
  induction old with
  | nil =>
    intro dm tr nhm dm1 nhm1 tr1 r h hs hag
    simp only [syncAll, Prod.mk.injEq] at h
    obtain ⟨-, -, -, rfl⟩ := h
    exact nofun
  | cons p rest ih =>
    intro dm tr nhm dm1 nhm1 tr1 r h hs hag
    obtain ⟨oldA, oldSet⟩ := p
    simp only [syncAll] at h
    rcases hso : syncOld env oldA oldSet dm tr nhm with ⟨dm2, nhm2, tr2, r2⟩
    rw [hso] at h
    have hag0 : ∀ q, q ∈ nhm → ∀ k, k ∈ oldSet → isAgentKey k = true →
        k ∈ q.2 :=
      fun q hq k hk ha =>
        hag (oldA, oldSet) (List.mem_cons_self _ _) k hk ha q hq
    have hso2 := syncOld_no_panic env oldA oldSet nhm dm tr hso hs hag0
    cases r2 with
    | err e =>
      simp only [Prod.mk.injEq] at h
      obtain ⟨-, -, -, rfl⟩ := h
      exact hso2.1
    | ok u =>
      cases u
      simp only at h
      have hrel := syncOld_ok_mem env oldA oldSet nhm dm tr hso
      refine ih dm2 tr2 nhm2 h hso2.2 ?_
      intro p hp k hk ha q2 hq2
      obtain ⟨q, hq, hqrel⟩ := EachRel.mem_right hrel hq2
      exact (hqrel.2 k).mpr (Or.inl
        (hag p (List.mem_cons_of_mem _ hp) k hk ha q hq))

theorem syncAll_good (env : Env) :
    ∀ (old : HasMap) (dm : DataMap) (tr : Trace) (nhm : HasMap)
      {dm1 : DataMap} {nhm1 : HasMap} {tr1 : Trace},
      syncAll env dm tr nhm old = (dm1, nhm1, tr1, KRes.ok ()) →
      GoodTr env tr → GoodTr env tr1 := by
  intro old
  induction old with
  | nil =>
    intro dm tr nhm dm1 nhm1 tr1 h hg
    simp only [syncAll, Prod.mk.injEq] at h
    obtain ⟨-, -, rfl, -⟩ := h
    exact hg
  | cons p rest ih =>
    intro dm tr nhm dm1 nhm1 tr1 h hg
    obtain ⟨oldA, oldSet⟩ := p
    simp only [syncAll] at h
    rcases hso : syncOld env oldA oldSet dm tr nhm with ⟨dm2, nhm2, tr2, r2⟩
    rw [hso] at h
    cases r2 with
    | err e =>
      simp only [Prod.mk.injEq] at h
      obtain ⟨-, -, -, h4⟩ := h
      cases h4
    | ok u =>
      cases u
      simp only at h
      exact ih dm2 tr2 nhm2 h (syncOld_good env oldA oldSet nhm dm tr hso hg)

theorem syncAll_fetch (env : Env) (hon : HonestFetch env) :
    ∀ (old : HasMap) (dm : DataMap) (tr : Trace) (nhm : HasMap)
      {dm1 : DataMap} {nhm1 : HasMap} {tr1 : Trace} {r : KRes Unit},
      syncAll env dm tr nhm old = (dm1, nhm1, tr1, r) →
      FetchCached dm tr → (tr.fetched.map Prod.snd).Nodup →
      (tr1.fetched.map Prod.snd).Nodup := by
  intro old
  induction old with
  | nil =>
    intro dm tr nhm dm1 nhm1 tr1 r h hc hnd
    simp only [syncAll, Prod.mk.injEq] at h
    obtain ⟨-, -, rfl, -⟩ := h
    exact hnd
  | cons p rest ih =>
    intro dm tr nhm dm1 nhm1 tr1 r h hc hnd
    obtain ⟨oldA, oldSet⟩ := p
    simp only [syncAll] at h
    rcases hso : syncOld env oldA oldSet dm tr nhm with ⟨dm2, nhm2, tr2, r2⟩
    rw [hso] at h
    have hso2 := syncOld_fetch env oldA oldSet hon nhm dm tr hso hc hnd
    cases r2 with
    | err e =>
      simp only [Prod.mk.injEq] at h
      obtain ⟨-, -, rfl, -⟩ := h
      exact hso2.1
    | ok u =>
      cases u
      simp only at h
      exact ih dm2 tr2 nhm2 h (hso2.2 rfl) hso2.1

theorem syncAll_compat (env : Env) (hon : HonestFetch env) :
    ∀ (old : HasMap) (dm : DataMap) (tr : Trace) (nhm : HasMap)
      {dm1 : DataMap} {nhm1 : HasMap} {tr1 : Trace} {r : KRes Unit},
      syncAll env dm tr nhm old = (dm1, nhm1, tr1, r) →
      InsCur dm tr.inserts → Compat tr.inserts → OpEvs tr.inserts →
      Compat tr1.inserts ∧ OpEvs tr1.inserts := by
  intro old
  induction old with
  | nil =>
    intro dm tr nhm dm1 nhm1 tr1 r h hcur hcomp hope
    simp only [syncAll, Prod.mk.injEq] at h
    obtain ⟨-, -, rfl, -⟩ := h
    exact ⟨hcomp, hope⟩
  | cons p rest ih =>
    intro dm tr nhm dm1 nhm1 tr1 r h hcur hcomp hope
    obtain ⟨oldA, oldSet⟩ := p
    simp only [syncAll] at h
    rcases hso : syncOld env oldA oldSet dm tr nhm with ⟨dm2, nhm2, tr2, r2⟩
    rw [hso] at h
    have hso2 := syncOld_compat env oldA oldSet hon nhm dm tr hso hcur hcomp
      hope
    cases r2 with
    | err e =>
      simp only [Prod.mk.injEq] at h
      obtain ⟨-, -, rfl, -⟩ := h
      exact ⟨hso2.1, hso2.2.1⟩
    | ok u =>
      cases u
      simp only at h
      exact ih dm2 tr2 nhm2 h (hso2.2.2 rfl) hso2.1 hso2.2.1

theorem local_sync_eq (env : Env) (inner : Inner) :
    (∃ dm nhm tr,
        syncAll env inner.data_map emptyTrace inner.has_hash inner.has_hash =
          (dm, nhm, tr, KRes.ok ()) ∧
        local_sync env inner =
          ({ inner with data_map := dm, has_hash := nhm }, tr,
            KRes.ok ())) ∨
    (∃ dm nhm tr e,
        syncAll env inner.data_map emptyTrace inner.has_hash inner.has_hash =
          (dm, nhm, tr, KRes.err e) ∧
        local_sync env inner =
          ({ inner with data_map := dm }, tr, KRes.err e)) := by
  rcases hsa : syncAll env inner.data_map emptyTrace inner.has_hash
      inner.has_hash with ⟨dm, nhm, tr, r⟩
  cases r with
  | ok u =>
    cases u
    exact Or.inl ⟨dm, nhm, tr, rfl, by simp [local_sync, hsa]⟩
  | err e =>
    exact Or.inr ⟨dm, nhm, tr, e, rfl, by simp [local_sync, hsa]⟩

theorem final_entry_mem {hh nhm1 : HasMap}
    (hnd : (hh.map Prod.fst).Nodup)
    (hrel : EachRel (AllRel hh) hh nhm1)
    {q : Agent × KeySet} (hq : q ∈ nhm1) (k : MetaOpKey) :
    k ∈ q.2 ↔ ∃ p, p ∈ hh ∧ k ∈ p.2 := by
  obtain ⟨p, hp, hrp⟩ := EachRel.mem_right hrel hq
  rw [hrp.2 k]
  constructor
  · rintro (hk | ⟨e, he, -, hk⟩)
    · exact ⟨p, hp, hk⟩
    · exact ⟨e, he, hk⟩
  · rintro ⟨e, he, hk⟩
    by_cases hcase : e.1 = p.1
    · have hep : e = p := nodupFst_eq hnd he hp hcase
      rw [hep] at hk
      exact Or.inl hk
    · exact Or.inr ⟨e, he, hcase, hk⟩

theorem AllAgentDm_OpShaped {dm : DataMap} (h : AllAgentDm dm) :
    OpShaped dm := by
  intro hsh i hc
  have hk := h _ _ hc
  simp [isAgentKey] at hk

theorem compat_append_shapes {evs1 evs2 : List (MetaOpKey × MetaOpData)}
    (h1 : Compat evs1) (h2 : Compat evs2)
    (ha : AgentEvs evs1) (ho : OpEvs evs2) :
    Compat (evs1 ++ evs2) := by
  intro e1 he1 e2 he2 hk
  rw [List.mem_append] at he1 he2
  rcases he1 with he1 | he1 <;> rcases he2 with he2 | he2
  · exact h1 e1 he1 e2 he2 hk
  · have hA := ha e1 he1
    have hO := ho e2 he2
    rw [hk, hO] at hA
    cases hA
  · have hA := ha e2 he2
    have hO := ho e1 he1
    rw [hk, hA] at hO
    cases hO
  · exact h2 e1 he1 e2 he2 hk

theorem hhInsert_noAgent :
    ∀ (hh : HasMap) (a : Agent) (h : OpHash),
      NoAgentKeys hh → NoAgentKeys (hhInsert hh a (MetaOpKey.op h)) := by
  intro hh
  induction hh with
  | nil =>
    intro a h _ p hp k hk
    simp only [hhInsert, List.mem_singleton] at hp
    rw [hp] at hk
    simp only [List.mem_singleton] at hk
    rw [hk]
    rfl
  | cons x rest ih =>
    intro a h hna p hp k hk
    obtain ⟨b, s⟩ := x
    simp only [hhInsert] at hp
    split at hp
    · rcases List.mem_cons.mp hp with rfl | hp2
      · rcases mem_ksInsert.mp hk with hk2 | rfl
        · exact hna (b, s) (List.mem_cons_self _ _) k hk2
        · rfl
      · exact hna p (List.mem_cons_of_mem _ hp2) k hk
    · rcases List.mem_cons.mp hp with rfl | hp2
      · exact hna (b, s) (List.mem_cons_self _ _) k hk
      · exact ih a h
          (fun q hq k2 hk2 => hna q (List.mem_cons_of_mem _ hq) k2 hk2)
          p hp2 k hk

theorem insertOps_noAgent :
    ∀ (ops : List OpHash) (hh : HasMap) (a : Agent),
      NoAgentKeys hh → NoAgentKeys (insertOps hh a ops) := by
  intro ops
  induction ops with
  | nil => intro hh a h; exact h
  | cons o rest ih =>
    intro hh a h
    exact ih _ a (hhInsert_noAgent hh a o h)

theorem collectOps_noAgent (env : Env) :
    ∀ (la : List Agent) (hh : HasMap),
      NoAgentKeys hh → NoAgentKeys (collectOps env hh la) := by
  intro la
  induction la with
  | nil => intro hh h; exact h
  | cons a rest ih =>
    intro hh h
    simp only [collectOps]
    split
    · exact ih hh h
    · exact ih _ (insertOps_noAgent _ hh a h)

theorem hhGet_hhInsert_ne :
    ∀ (hh : HasMap) (b a : Agent) (k : MetaOpKey), a ≠ b →
      hhGet (hhInsert hh b k) a = hhGet hh a := by
  intro hh
  induction hh with
  | nil =>
    intro b a k hne
    simp only [hhInsert, hhGet, if_neg hne]
  | cons x rest ih =>
    intro b a k hne
    obtain ⟨c, s⟩ := x
    simp only [hhInsert]
    split
    · rename_i hbc
      rw [← hbc]
      simp only [hhGet, if_neg hne]
    · simp only [hhGet]
      split
      · rfl
      · exact ih b a k hne

theorem hhGet_insertOps_ne :
    ∀ (ops : List OpHash) (hh : HasMap) (b a : Agent), a ≠ b →
      hhGet (insertOps hh b ops) a = hhGet hh a := by
  intro ops
  induction ops with
  | nil => intro hh b a _; rfl
  | cons o rest ih =>
    intro hh b a hne
    simp only [insertOps]
    rw [ih _ b a hne, hhGet_hhInsert_ne hh b a _ hne]

theorem collectOps_err (env : Env) :
    ∀ (la : List Agent) (hh : HasMap) (a : Agent),
      env.fetch_op_hashes_for_constraints a = .error () →
      hhGet (collectOps env hh la) a = hhGet hh a := by
  intro la
  induction la with
  | nil => intro hh a _; rfl
  | cons b rest ih =>
    intro hh a herr
    by_cases hab : a = b
    · rw [← hab]
      simp only [collectOps, herr]
      exact ih hh a herr
    · simp only [collectOps]
      split
      · exact ih hh a herr
      · rw [ih _ a herr, hhGet_insertOps_ne _ hh b a hab]

theorem collectInfos_mem :
    ∀ (infos : List AgentInfoSigned) (dm : DataMap) (hh : HasMap)
      (evs : List (MetaOpKey × MetaOpData)),
      ∀ q1, q1 ∈ (collectInfos dm hh evs infos).2.1 →
        ∃ q, q ∈ hh ∧ q1.1 = q.1 ∧
          (∀ k, k ∈ q.2 → k ∈ q1.2) ∧
          (∀ i, i ∈ infos → (MetaOpData.agent i).key ∈ q1.2) ∧
          (∀ k, k ∈ q1.2 → k ∈ q.2 ∨
            ∃ i, i ∈ infos ∧ k = (MetaOpData.agent i).key) := by
  intro infos
  induction infos with
  | nil =>
    intro dm hh evs q1 hq1
    exact ⟨q1, hq1, rfl, fun k hk => hk,
      fun i hi => absurd hi (List.not_mem_nil i), fun k hk => Or.inl hk⟩
  | cons i infos ih =>
    intro dm hh evs q1 hq1
    simp only [collectInfos] at hq1
    obtain ⟨qm, hqm, hq1a, hgrow, hkeys, hfrom⟩ := ih _ _ _ q1 hq1
    obtain ⟨q, hq, hqe⟩ := List.mem_map.mp hqm
    refine ⟨q, hq, ?_, ?_, ?_, ?_⟩
    · rw [hq1a, ← hqe]
    · intro k hk
      exact hgrow k (hqe ▸ mem_ksInsert.mpr (Or.inl hk))
    · intro j hj
      rcases List.mem_cons.mp hj with rfl | hj2
      · exact hgrow _ (hqe ▸ mem_ksInsert.mpr (Or.inr rfl))
      · exact hkeys j hj2
    · intro k hk
      rcases hfrom k hk with hk2 | ⟨j, hj, hk2⟩
      · rw [← hqe] at hk2
        rcases mem_ksInsert.mp hk2 with hk3 | rfl
        · exact Or.inl hk3
        · exact Or.inr ⟨i, List.mem_cons_self _ _, rfl⟩
      · exact Or.inr ⟨j, List.mem_cons_of_mem _ hj, hk2⟩

theorem collectInfos_dm :
    ∀ (infos : List AgentInfoSigned) (dm : DataMap) (hh : HasMap)
      (evs : List (MetaOpKey × MetaOpData)),
      AllAgentDm dm → AllAgentDm (collectInfos dm hh evs infos).1 := by
  intro infos
  induction infos with
  | nil => intro dm hh evs h; exact h
  | cons i infos ih =>
    intro dm hh evs h
    simp only [collectInfos]
    refine ih _ _ _ ?_
    intro k v hk
    rw [dmGet_dmInsert] at hk
    split at hk
    · rename_i hke
      rw [hke]
      rfl
    · exact h k v hk

theorem collectInfos_compat (infos0 : List AgentInfoSigned)
    (hinj : ∀ i1, i1 ∈ infos0 → ∀ i2, i2 ∈ infos0 →
      (MetaOpData.agent i1).key = (MetaOpData.agent i2).key → i1 = i2) :
    ∀ (infos : List AgentInfoSigned), (∀ i, i ∈ infos → i ∈ infos0) →
      ∀ (dm : DataMap) (hh : HasMap) (evs : List (MetaOpKey × MetaOpData)),
        DmFrom infos0 dm → InsCur dm evs → Compat evs → AgentEvs evs →
        DmFrom infos0 (collectInfos dm hh evs infos).1 ∧
          InsCur (collectInfos dm hh evs infos).1
            (collectInfos dm hh evs infos).2.2 ∧
          Compat (collectInfos dm hh evs infos).2.2 ∧
          AgentEvs (collectInfos dm hh evs infos).2.2 := by
  intro infos
  induction infos with
  | nil =>
    intro _ dm hh evs hfrom hcur hcomp hage
    exact ⟨hfrom, hcur, hcomp, hage⟩
  | cons i infos ih =>
    intro hsub dm hh evs hfrom hcur hcomp hage
    simp only [collectInfos]
    have hi0 : i ∈ infos0 := hsub i (List.mem_cons_self _ _)
    have hsame : ∀ e, e ∈ evs → e.1 = (MetaOpData.agent i).key →
        e.2 = MetaOpData.agent i := by
      intro e he hke
      have hc := hcur e he
      obtain ⟨i2, hi2, hki2, hvi2⟩ := hfrom e.1 e.2 hc
      rw [hvi2]
      rw [hke] at hki2
      rw [hinj i2 hi2 i hi0 hki2.symm]
    refine ih (fun j hj => hsub j (List.mem_cons_of_mem _ hj)) _ _ _ ?_ ?_ ?_ ?_
    · intro k v hk
      rw [dmGet_dmInsert] at hk
      split at hk
      · rename_i hke
        rw [hke]
        injection hk with hk2
        exact ⟨i, hi0, rfl, hk2.symm⟩
      · exact hfrom k v hk
    · intro e he
      rw [List.mem_append, List.mem_singleton] at he
      rcases he with he | rfl
      · rw [dmGet_dmInsert]
        split
        · rename_i hke
          rw [hsame e he hke]
        · exact hcur e he
      · rw [dmGet_dmInsert, if_pos rfl]
    · intro e1 h1 e2 h2 hk12
      rw [List.mem_append, List.mem_singleton] at h1 h2
      rcases h1 with h1 | rfl
      · rcases h2 with h2 | rfl
        · exact hcomp e1 h1 e2 h2 hk12
        · exact hsame e1 h1 hk12
      · rcases h2 with h2 | rfl
        · exact (hsame e2 h2 hk12.symm).symm
        · rfl
    · intro e he
      rw [List.mem_append, List.mem_singleton] at he
      rcases he with he | rfl
      · exact hage e he
      · rfl

theorem NoAgentKeys_covered {hh : HasMap} (h : NoAgentKeys hh) :
    AgentCovered hh hh := by
  intro p hp k hk ha q hq
  rw [h p hp k hk] at ha
  cases ha

theorem AllAgentDm_nil : AllAgentDm [] := by
  intro k v hk
  exact Option.noConfusion hk

theorem hhGet_mem : ∀ (hh : HasMap) (a : Agent) (s : KeySet),
    hhGet hh a = some s → (a, s) ∈ hh := by
  intro hh
  induction hh with
  | nil => intro a s h; exact Option.noConfusion h
  | cons x rest ih =>
    intro a s h
    obtain ⟨b, t⟩ := x
    simp only [hhGet] at h
    split at h
    · rename_i hab
      injection h with h2
      rw [hab, h2]
      exact List.mem_cons_self _ _
    · exact List.mem_cons_of_mem _ (ih a s h)

theorem collect_agents_covered (env : Env) (inner : Inner)
    (hna : NoAgentKeys inner.has_hash) (hdm : AllAgentDm inner.data_map) :
    AgentCovered (collect_local_agents env inner).1.has_hash
      (collect_local_agents env inner).1.has_hash ∧
    AllAgentDm (collect_local_agents env inner).1.data_map := by
  rcases hla : inner.local_agents with _ | ⟨a, rest⟩
  · simp only [collect_local_agents, hla]
    exact ⟨NoAgentKeys_covered hna, hdm⟩
  · simp only [collect_local_agents, hla]
    rcases hq : env.query_agent_info_signed a with u | infos
    · simp only
      exact ⟨NoAgentKeys_covered hna, hdm⟩
    · simp only
      rcases hci : collectInfos inner.data_map inner.has_hash [] infos with
        ⟨dm2, hh2, evs2⟩
      simp only
      constructor
      · intro p hp k hk ha q hq2
        obtain ⟨q0, hq0, -, -, -, hfrom⟩ :=
          collectInfos_mem infos inner.data_map inner.has_hash [] p
            (by rw [hci]; exact hp)
        rcases hfrom k hk with hk2 | ⟨i, hi, rfl⟩
        · rw [hna q0 hq0 k hk2] at ha
          cases ha
        · obtain ⟨-, -, -, -, hkeys, -⟩ :=
            collectInfos_mem infos inner.data_map inner.has_hash [] q
              (by rw [hci]; exact hq2)
          exact hkeys i hi
      · have hd := collectInfos_dm infos inner.data_map inner.has_hash [] hdm
        rw [hci] at hd
        exact hd

theorem collect_agents_compat (env : Env) (inner : Inner)
    (hinj : AgentKeyInj env) (hdm : inner.data_map = []) :
    Compat (collect_local_agents env inner).2 ∧
    AgentEvs (collect_local_agents env inner).2 ∧
    InsCur (collect_local_agents env inner).1.data_map
      (collect_local_agents env inner).2 := by
  rcases hla : inner.local_agents with _ | ⟨a, rest⟩
  · simp only [collect_local_agents, hla]
    exact ⟨fun e1 h1 => absurd h1 (List.not_mem_nil e1),
      fun e he => absurd he (List.not_mem_nil e),
      fun e he => absurd he (List.not_mem_nil e)⟩
  · simp only [collect_local_agents, hla]
    rcases hq : env.query_agent_info_signed a with u | infos
    · simp only
      exact ⟨fun e1 h1 => absurd h1 (List.not_mem_nil e1),
        fun e he => absurd he (List.not_mem_nil e),
        fun e he => absurd he (List.not_mem_nil e)⟩
    · simp only
      rcases hci : collectInfos inner.data_map inner.has_hash [] infos with
        ⟨dm2, hh2, evs2⟩
      simp only
      have hc := collectInfos_compat infos (hinj a infos hq) infos
        (fun j hj => hj) inner.data_map inner.has_hash []
        (fun k v hk => by rw [hdm] at hk; exact Option.noConfusion hk)
        (fun e he => absurd he (List.not_mem_nil e))
        (fun e1 h1 => absurd h1 (List.not_mem_nil e1))
        (fun e he => absurd he (List.not_mem_nil e))
      rw [hci] at hc
      exact ⟨hc.2.2.1, hc.2.2.2, hc.2.1⟩

theorem collect_agents_keys (env : Env) (inner : Inner) {a0 : Agent}
    {rest : List Agent} (hla : inner.local_agents = a0 :: rest)
    {infos : List AgentInfoSigned}
    (hq : env.query_agent_info_signed a0 = .ok infos) :
    ∀ q1, q1 ∈ (collect_local_agents env inner).1.has_hash →
      ∀ i, i ∈ infos → (MetaOpData.agent i).key ∈ q1.2 := by
  intro q1 hq1 i hi
  simp only [collect_local_agents, hla, hq] at hq1
  rcases hci : collectInfos inner.data_map inner.has_hash [] infos with
    ⟨dm2, hh2, evs2⟩
  rw [hci] at hq1
  simp only at hq1
  obtain ⟨q, -, -, -, hkeys, -⟩ :=
    collectInfos_mem infos inner.data_map inner.has_hash [] q1
      (by rw [hci]; exact hq1)
  exact hkeys i hi

theorem collect_covered (env : Env) (la : List Agent) :
    AgentCovered (collect_local_agents env
        (collect_local_ops env (initInner la))).1.has_hash
      (collect_local_agents env
        (collect_local_ops env (initInner la))).1.has_hash ∧
    OpShaped (collect_local_agents env
        (collect_local_ops env (initInner la))).1.data_map := by
  have hna : NoAgentKeys (collect_local_ops env (initInner la)).has_hash :=
    collectOps_noAgent env la [] (fun p hp => absurd hp (List.not_mem_nil p))
  obtain ⟨hcov, hdm⟩ := collect_agents_covered env
    (collect_local_ops env (initInner la)) hna AllAgentDm_nil
  exact ⟨hcov, AllAgentDm_OpShaped hdm⟩

/-- C1: convergence — for any host behaviour and any initial per-agent
knowledge sets (a well formed index has pairwise distinct agents, the
HashMap representation invariant), after local_sync returns successfully
all entries of the per-agent index hold pairwise set-equal key sets. -/
theorem C1_convergence (env : Env) (inner : Inner)
    (hnd : (inner.has_hash.map Prod.fst).Nodup)
    (hok : (local_sync env inner).2.2 = KRes.ok ()) :
    ∀ p, p ∈ (local_sync env inner).1.has_hash →
      ∀ q, q ∈ (local_sync env inner).1.has_hash →
        ∀ k, (k ∈ p.2 ↔ k ∈ q.2) := by
  rcases local_sync_eq env inner with ⟨dm, nhm, tr, hsa, hls⟩ |
    ⟨dm, nhm, tr, e, hsa, hls⟩
  · rw [hls]
    simp only
    intro p hp q hq k
    have hrel := syncAll_ok_mem env inner.has_hash inner.data_map emptyTrace
      inner.has_hash hsa
    rw [final_entry_mem hnd hrel hp k, final_entry_mem hnd hrel hq k]
  · rw [hls] at hok
    simp at hok

/-- C1 witness: the healthy two-agent host; both final entries agree on
membership of the op key 2. -/
theorem C1_convergence_witness :
    ((innerA.has_hash.map Prod.fst).Nodup ∧
      (local_sync envA innerA).2.2 = KRes.ok () ∧
      (0, [MetaOpKey.op 1, MetaOpKey.op 2]) ∈
        (local_sync envA innerA).1.has_hash ∧
      (1, [MetaOpKey.op 2, MetaOpKey.op 1]) ∈
        (local_sync envA innerA).1.has_hash) ∧
    (MetaOpKey.op 2 ∈
        ((0, [MetaOpKey.op 1, MetaOpKey.op 2]) : Agent × KeySet).2 ↔
      MetaOpKey.op 2 ∈
        ((1, [MetaOpKey.op 2, MetaOpKey.op 1]) : Agent × KeySet).2) :=
  ⟨⟨by decide, by decide, by decide, by decide⟩,
    C1_convergence envA innerA (by decide) (by decide) _ (by decide) _
      (by decide) (MetaOpKey.op 2)⟩

/-- C3: conservation — the union of all keys over all per-agent index
entries immediately before local_sync equals, as a set, the canonical key
set that finish returns after a successful pass. -/
theorem C3_conservation (env : Env) (inner : Inner)
    (hnd : (inner.has_hash.map Prod.fst).Nodup)
    (hok : (local_sync env inner).2.2 = KRes.ok ()) :
    ∀ k, (∃ p, p ∈ inner.has_hash ∧ k ∈ p.2) ↔
      k ∈ (finish (local_sync env inner).1).2.1 := by
  rcases local_sync_eq env inner with ⟨dm, nhm, tr, hsa, hls⟩ |
    ⟨dm, nhm, tr, e, hsa, hls⟩
  · rw [hls]
    intro k
    have hrel := syncAll_ok_mem env inner.has_hash inner.data_map emptyTrace
      inner.has_hash hsa
    rcases hnhm : nhm with _ | ⟨⟨qa, qs⟩, rest⟩
    · rw [hnhm] at hrel
      have hhh : inner.has_hash = [] := EachRel.nil_right hrel
      rw [hhh]
      simp [finish]
    · rw [hnhm] at hrel
      simp only [finish]
      exact (final_entry_mem hnd hrel (List.mem_cons_self _ _) k).symm
  · rw [hls] at hok
    simp at hok

/-- C3 witness: on the healthy two-agent host the key op 1 is in the
pre-pass union exactly as it is in the canonical set. -/
theorem C3_conservation_witness :
    ((innerA.has_hash.map Prod.fst).Nodup ∧
      (local_sync envA innerA).2.2 = KRes.ok ()) ∧
    ((∃ p, p ∈ innerA.has_hash ∧ MetaOpKey.op 1 ∈ p.2) ↔
      MetaOpKey.op 1 ∈ (finish (local_sync envA innerA).1).2.1) :=
  ⟨⟨by decide, by decide⟩,
    C3_conservation envA innerA (by decide) (by decide) (MetaOpKey.op 1)⟩

/-- C10: error atomicity — whenever local_sync returns an error, the
has_hash field is exactly its value at entry; the working copy is committed
only after every agent pair succeeded (the data map may keep what was
fetched before the failure). -/
theorem C10_error_atomicity (env : Env) (inner : Inner) (e : PassErr)
    (herr : (local_sync env inner).2.2 = KRes.err e) :
    (local_sync env inner).1.has_hash = inner.has_hash := by
  rcases local_sync_eq env inner with ⟨dm, nhm, tr, hsa, hls⟩ |
    ⟨dm, nhm, tr, e2, hsa, hls⟩
  · rw [hls] at herr
    simp at herr
  · rw [hls]

/-- C10 witness: a host whose op-data fetches fail makes local_sync return
an error and leave the index untouched. -/
theorem C10_error_atomicity_witness :
    ((local_sync envFF innerA).2.2 = KRes.err PassErr.fail) ∧
    (local_sync envFF innerA).1.has_hash = innerA.has_hash :=
  ⟨by decide, C10_error_atomicity envFF innerA PassErr.fail (by decide)⟩

/-- C2 counterexample: one local agent whose op-hash query fails, while the
agent-info query returns one record; after the collection stage the index
is empty, so that agent has no entry and in particular no entry containing
the returned record's key — refuting universality regardless of pre-existing
per-agent state. -/
theorem C2_universality_counterexample :
    (0 : Agent) ∈ ([0] : List Agent) ∧
    envCF.fetch_op_hashes_for_constraints 0 = .error () ∧
    envCF.query_agent_info_signed 0 = .ok [infoA] ∧
    ¬ ∃ s, hhGet (collect_local_agents envCF
        (collect_local_ops envCF (initInner [0]))).1.has_hash 0 = some s ∧
      (MetaOpData.agent infoA).key ∈ s := by
  refine ⟨by decide, rfl, rfl, ?_⟩
  rintro ⟨s, hs, -⟩
  have h0 : hhGet (collect_local_agents envCF
      (collect_local_ops envCF (initInner [0]))).1.has_hash 0 = none := by
    decide
  rw [h0] at hs
  exact Option.noConfusion hs

/-- C2 amended: after the collection stage, every local agent that has an
entry in the per-agent index (equivalently, whose op-hash query succeeded
with at least one hash) holds, in that entry, every agent-info key returned
by the single shared query; agents whose op-hash query failed or returned
no hashes have no entry at all. -/
theorem C2_universality_amended (env : Env) (la : List Agent) (a0 : Agent)
    (rest : List Agent) (hla : la = a0 :: rest)
    (infos : List AgentInfoSigned)
    (hq : env.query_agent_info_signed a0 = .ok infos)
    (a : Agent) (s : KeySet)
    (hget : hhGet (collect_local_agents env
        (collect_local_ops env (initInner la))).1.has_hash a = some s) :
    ∀ i, i ∈ infos → (MetaOpData.agent i).key ∈ s := by
  intro i hi
  exact collect_agents_keys env (collect_local_ops env (initInner la))
    (show (collect_local_ops env (initInner la)).local_agents = a0 :: rest
      from hla)
    hq (a, s) (hhGet_mem _ a s hget) i hi

/-- C2 amended witness: on the healthy host, agent 0 has an entry after
collection and it contains the agent-info key. -/
theorem C2_universality_amended_witness :
    (([0, 1] : List Agent) = 0 :: [1] ∧
      envA.query_agent_info_signed 0 = .ok [infoA] ∧
      hhGet (collect_local_agents envA
          (collect_local_ops envA (initInner [0, 1]))).1.has_hash 0 =
        some [MetaOpKey.op 1, MetaOpKey.op 2, MetaOpKey.agent 7 3]) ∧
    (MetaOpData.agent infoA).key ∈
      [MetaOpKey.op 1, MetaOpKey.op 2, MetaOpKey.agent 7 3] :=
  ⟨⟨rfl, rfl, by decide⟩,
    C2_universality_amended envA [0, 1] 0 [1] rfl [infoA] rfl 0
      [MetaOpKey.op 1, MetaOpKey.op 2, MetaOpKey.agent 7 3] (by decide)
      infoA (by decide)⟩

/-- C4: reconciliation failures are fatal — if during the pass a
fetch-op-data request got an error or a result of length other than one, or
a local delivery request got an error, then the whole pass returns an error
rather than a result triple. -/
theorem C4_reconciliation_fatal (env : Env) (la : List Agent)
    (hbad :
      (∃ p, p ∈ (step_2_local_sync_inner env la).tr.fetched ∧
        badFetch env p.1 p.2 = true) ∨
      (∃ g, g ∈ (step_2_local_sync_inner env la).tr.gossips ∧
        badGossip env g = true)) :
    (step_2_local_sync_inner env la).result.isOk = false := by
  rcases hca : collect_local_agents env (collect_local_ops env (initInner la))
    with ⟨i2, ins⟩
  rcases local_sync_eq env i2 with ⟨dm, nhm, tr, hsa, hls⟩ |
    ⟨dm, nhm, tr, e, hsa, hls⟩
  · exfalso
    have hstep : step_2_local_sync_inner env la =
        ⟨.ok (finish { i2 with data_map := dm, has_hash := nhm }),
          ⟨tr.fetched, ins ++ tr.inserts, tr.gossips⟩⟩ := by
      simp [step_2_local_sync_inner, hca, hls]
    have hgood := syncAll_good env i2.has_hash i2.data_map emptyTrace
      i2.has_hash hsa
      ⟨fun p hp => absurd hp (List.not_mem_nil p),
        fun g hg => absurd hg (List.not_mem_nil g)⟩
    rw [hstep] at hbad
    rcases hbad with ⟨p, hp, hb⟩ | ⟨g, hg, hb⟩
    · rw [hgood.1 p hp] at hb
      cases hb
    · rw [hgood.2 g hg] at hb
      cases hb
  · have hstep : step_2_local_sync_inner env la =
        ⟨.err e, ⟨tr.fetched, ins ++ tr.inserts, tr.gossips⟩⟩ := by
      simp [step_2_local_sync_inner, hca, hls]
    rw [hstep]
    rfl

/-- C4 witness: a host whose op-data fetch errors; the bad fetch is in the
trace and the pass result is an error. -/
theorem C4_reconciliation_fatal_witness :
    ((0, 1) ∈ (step_2_local_sync_inner envFF [0, 1]).tr.fetched ∧
      badFetch envFF 0 1 = true) ∧
    (step_2_local_sync_inner envFF [0, 1]).result.isOk = false :=
  ⟨⟨by decide, by decide⟩,
    C4_reconciliation_fatal envFF [0, 1]
      (Or.inl ⟨(0, 1), by decide, by decide⟩)⟩

/-- C5: the two unreachable branches are never reached — a pass that starts
from an empty index and runs collect_local_ops, collect_local_agents and
local_sync never ends in the panic outcome, for every host behaviour: a
cache miss on an agent-info key inside data_map_get cannot occur, and
resolved record data for a missing key is never an agent-info record. -/
theorem C5_unreachable_branches (env : Env) (la : List Agent) :
    (step_2_local_sync_inner env la).result ≠ KRes.err PassErr.panicked := by
  rcases hca : collect_local_agents env (collect_local_ops env (initInner la))
    with ⟨i2, ins⟩
  have hcov := collect_covered env la
  rw [hca] at hcov
  rcases local_sync_eq env i2 with ⟨dm, nhm, tr, hsa, hls⟩ |
    ⟨dm, nhm, tr, e, hsa, hls⟩
  · have hstep : step_2_local_sync_inner env la =
        ⟨.ok (finish { i2 with data_map := dm, has_hash := nhm }),
          ⟨tr.fetched, ins ++ tr.inserts, tr.gossips⟩⟩ := by
      simp [step_2_local_sync_inner, hca, hls]
    rw [hstep]
    exact nofun
  · have hnp := syncAll_no_panic env i2.has_hash i2.data_map emptyTrace
      i2.has_hash hsa hcov.2 hcov.1
    have hstep : step_2_local_sync_inner env la =
        ⟨.err e, ⟨tr.fetched, ins ++ tr.inserts, tr.gossips⟩⟩ := by
      simp [step_2_local_sync_inner, hca, hls]
    rw [hstep]
    intro hcon
    injection hcon with hcon2
    exact hnp (by rw [hcon2])

theorem envA_honest : HonestFetch envA := by
  intro a h kk dd hf
  simp only [envA] at hf
  injection hf with hf1
  injection hf1 with hf2 hf3
  injection hf2 with hf4 hf5
  exact hf4.symm

theorem envA_inj : AgentKeyInj envA := by
  intro a infos hq i1 h1 i2 h2 hk
  simp only [envA] at hq
  injection hq with hq1
  rw [← hq1] at h1 h2
  simp only [List.mem_singleton] at h1 h2
  rw [h1, h2]

/-- C6: the knowledge store never overwrites — under the interface contract
of the external source (a fetch answers for the requested hash, and
agent-info records are identified by their key), any two data-map insertion
events of one pass that bind the same key bind the same record, so no later
insertion replaces a key's record with a different value. -/
theorem C6_store_never_overwrites (env : Env) (la : List Agent)
    (hon : HonestFetch env) (hinj : AgentKeyInj env) :
    ∀ e1, e1 ∈ (step_2_local_sync_inner env la).tr.inserts →
      ∀ e2, e2 ∈ (step_2_local_sync_inner env la).tr.inserts →
        e1.1 = e2.1 → e1.2 = e2.2 := by
  rcases hca : collect_local_agents env (collect_local_ops env (initInner la))
    with ⟨i2, ins⟩
  have hcc := collect_agents_compat env (collect_local_ops env (initInner la))
    hinj rfl
  rw [hca] at hcc
  have hvac1 : InsCur i2.data_map emptyTrace.inserts :=
    fun e he => absurd he (List.not_mem_nil e)
  have hvac2 : Compat emptyTrace.inserts :=
    fun e1 h1 => absurd h1 (List.not_mem_nil e1)
  have hvac3 : OpEvs emptyTrace.inserts :=
    fun e he => absurd he (List.not_mem_nil e)
  rcases local_sync_eq env i2 with ⟨dm, nhm, tr, hsa, hls⟩ |
    ⟨dm, nhm, tr, e, hsa, hls⟩
  · have hsync := syncAll_compat env hon i2.has_hash i2.data_map emptyTrace
      i2.has_hash hsa hvac1 hvac2 hvac3
    have hstep : step_2_local_sync_inner env la =
        ⟨.ok (finish { i2 with data_map := dm, has_hash := nhm }),
          ⟨tr.fetched, ins ++ tr.inserts, tr.gossips⟩⟩ := by
      simp [step_2_local_sync_inner, hca, hls]
    rw [hstep]
    exact compat_append_shapes hcc.1 hsync.1 hcc.2.1 hsync.2
  · have hsync := syncAll_compat env hon i2.has_hash i2.data_map emptyTrace
      i2.has_hash hsa hvac1 hvac2 hvac3
    have hstep : step_2_local_sync_inner env la =
        ⟨.err e, ⟨tr.fetched, ins ++ tr.inserts, tr.gossips⟩⟩ := by
      simp [step_2_local_sync_inner, hca, hls]
    rw [hstep]
    exact compat_append_shapes hcc.1 hsync.1 hcc.2.1 hsync.2

/-- C6 witness: on the healthy host, the agent-info insert event and an op
insert event exist; applying the theorem at the agent-info event twice. -/
theorem C6_store_never_overwrites_witness :
    ((MetaOpKey.agent 7 3, MetaOpData.agent infoA) ∈
        (step_2_local_sync_inner envA [0, 1]).tr.inserts ∧
      (MetaOpKey.op 1, MetaOpData.op 1 [1]) ∈
        (step_2_local_sync_inner envA [0, 1]).tr.inserts) ∧
    (MetaOpData.agent infoA : MetaOpData) = MetaOpData.agent infoA :=
  ⟨⟨by decide, by decide⟩,
    C6_store_never_overwrites envA [0, 1] envA_honest envA_inj
      (MetaOpKey.agent 7 3, MetaOpData.agent infoA) (by decide)
      (MetaOpKey.agent 7 3, MetaOpData.agent infoA) (by decide) rfl⟩

/-- C7: collection failures are tolerated — an agent whose op-hash query
fails keeps its previous index entry (its contribution is skipped), a
failed agent-info query leaves the state unchanged and adds no events, the
collect stages are total by construction, and the pass result is an error
exactly when the reconciliation stage errs. -/
theorem C7_collection_tolerated :
    (∀ (env : Env) (inner : Inner) (a : Agent),
        env.fetch_op_hashes_for_constraints a = .error () →
        hhGet (collect_local_ops env inner).has_hash a =
          hhGet inner.has_hash a) ∧
    (∀ (env : Env) (inner : Inner) (a0 : Agent) (rest : List Agent),
        inner.local_agents = a0 :: rest →
        env.query_agent_info_signed a0 = .error () →
        collect_local_agents env inner = (inner, [])) ∧
    (∀ (env : Env) (la : List Agent),
        (step_2_local_sync_inner env la).result.isOk =
          ((local_sync env (collect_local_agents env
            (collect_local_ops env (initInner la))).1).2.2).isOk) := by
  refine ⟨?_, ?_, ?_⟩
  · intro env inner a herr
    exact collectOps_err env inner.local_agents inner.has_hash a herr
  · intro env inner a0 rest hla herr
    simp [collect_local_agents, hla, herr]
  · intro env la
    rcases hca : collect_local_agents env
      (collect_local_ops env (initInner la)) with ⟨i2, ins⟩
    rcases local_sync_eq env i2 with ⟨dm, nhm, tr, hsa, hls⟩ |
      ⟨dm, nhm, tr, e, hsa, hls⟩
    · have hstep : step_2_local_sync_inner env la =
          ⟨.ok (finish { i2 with data_map := dm, has_hash := nhm }),
            ⟨tr.fetched, ins ++ tr.inserts, tr.gossips⟩⟩ := by
        simp [step_2_local_sync_inner, hca, hls]
      rw [hstep, hls]
      rfl
    · have hstep : step_2_local_sync_inner env la =
          ⟨.err e, ⟨tr.fetched, ins ++ tr.inserts, tr.gossips⟩⟩ := by
        simp [step_2_local_sync_inner, hca, hls]
      rw [hstep, hls]
      rfl

/-- C7 witness: a host with failing queries; the agent keeps its entry and
the agent-info stage is the identity. -/
theorem C7_collection_tolerated_witness :
    (envCF.fetch_op_hashes_for_constraints 0 = .error () ∧
      hhGet (collect_local_ops envCF innerA).has_hash 0 =
        hhGet innerA.has_hash 0) ∧
    collect_local_agents envCQ ⟨[0], [], []⟩ = (⟨[0], [], []⟩, []) :=
  ⟨⟨rfl, C7_collection_tolerated.1 envCF innerA 0 rfl⟩,
    C7_collection_tolerated.2.1 envCQ ⟨[0], [], []⟩ 0 [] rfl rfl⟩

/-- C8: fetch caching — under the interface contract that a fetch answers
for the requested hash, the list of fetch-op-data requests of one pass
never repeats a hash: every hash is fetched at most once and later needs
are served from the knowledge store. -/
theorem C8_fetch_at_most_once (env : Env) (la : List Agent)
    (hon : HonestFetch env) :
    ((step_2_local_sync_inner env la).tr.fetched.map Prod.snd).Nodup := by
  rcases hca : collect_local_agents env (collect_local_ops env (initInner la))
    with ⟨i2, ins⟩
  have hvac : FetchCached i2.data_map emptyTrace :=
    fun p hp => absurd hp (List.not_mem_nil p)
  rcases local_sync_eq env i2 with ⟨dm, nhm, tr, hsa, hls⟩ |
    ⟨dm, nhm, tr, e, hsa, hls⟩
  · have hstep : step_2_local_sync_inner env la =
        ⟨.ok (finish { i2 with data_map := dm, has_hash := nhm }),
          ⟨tr.fetched, ins ++ tr.inserts, tr.gossips⟩⟩ := by
      simp [step_2_local_sync_inner, hca, hls]
    rw [hstep]
    show (tr.fetched.map Prod.snd).Nodup
    exact syncAll_fetch env hon i2.has_hash i2.data_map emptyTrace
      i2.has_hash hsa hvac List.nodup_nil
  · have hstep : step_2_local_sync_inner env la =
        ⟨.err e, ⟨tr.fetched, ins ++ tr.inserts, tr.gossips⟩⟩ := by
      simp [step_2_local_sync_inner, hca, hls]
    rw [hstep]
    show (tr.fetched.map Prod.snd).Nodup
    exact syncAll_fetch env hon i2.has_hash i2.data_map emptyTrace
      i2.has_hash hsa hvac List.nodup_nil

/-- C8 witness: on the healthy host the fetched hashes are 1, 2, 3, each
requested once. -/
theorem C8_fetch_at_most_once_witness :
    (step_2_local_sync_inner envA [0, 1]).tr.fetched.map Prod.snd =
      [1, 2, 3] ∧
    ((step_2_local_sync_inner envA [0, 1]).tr.fetched.map Prod.snd).Nodup :=
  ⟨by decide, C8_fetch_at_most_once envA [0, 1] envA_honest⟩

/-- C9: empty-input handling — with zero local agents the pass succeeds,
the knowledge store and the canonical key set are empty, the filter is the
degenerate minimal one built as new 1 1 (capacity one, one hash function,
per the spec's reading of the construction), and it reports negative
membership for every probed key. -/
theorem C9_empty_input (env : Env) :
    (step_2_local_sync_inner env []).result =
      KRes.ok ([], [], Bloom.new 1 1) ∧
    ∀ k, (Bloom.new 1 1).check k = false := by
  constructor
  · rfl
  · intro k
    simp [Bloom.check, Bloom.new]

end SimpleBloom
